import Mathlib

/-!
Verification of the concurrent sweep phase of the Dart VM's mark-sweep
garbage collector (runtime/vm/heap/sweeper.cc), via a shallow embedding.

A heap page's object area is modelled as an address-indexed memory: a
partial map from addresses to object headers (mark bit and heap size, as
read through `RawObject::IsMarked` / `RawObject::HeapSize`), together with
a total map from addresses to word contents.  The scan loops of
`GCSweeper::SweepPage` and `GCSweeper::SweepLargePage` are embedded as
fueled recursions over this memory; fuel exhaustion or a header lookup at
an address holding no object models the fatal integrity violations of the
source (they can only occur on ill-formed pages).

Machine parameters fixated by the model: a 64-bit target, so
`kWordSize = 8` and `kWordSizeLog2 = 3`.  The break-instruction filler
(`compiler::Assembler::GetBreakInstructionFiller`) and the debug poison
pattern (`Heap::kZapByte`, replicated to a word) are outside the given
sources and are treated as abstract word-valued parameters of the sweep
configuration.  The `DEBUG` build flag is likewise a boolean parameter.
-/

set_option autoImplicit false

namespace Sweep

/-- Word size of the modelled 64-bit target (`kWordSize`). -/
def kWordSize : Nat := 8

/-- `kWordSizeLog2` for the modelled 64-bit target. -/
def kWordSizeLog2 : Nat := 3

/-- The part of a `RawObject` header the sweeper reads and writes: the mark
bit (`IsMarked` / `ClearMarkBit`) and the heap size in bytes (`HeapSize`). -/
structure RawHeader where
  marked : Bool
  size : Nat
deriving DecidableEq

/-- Memory of one heap page's object area: `header a` is the object header
that `RawObject::FromAddr(a)` would see (`none` when no object starts at
`a`), `word a` is the word content stored at address `a`. -/
structure PageMem where
  header : Nat → Option RawHeader
  word : Nat → Nat

/-- `RawObject::ClearMarkBit` at address `a`. -/
def clearMarkBit (m : PageMem) (a : Nat) : PageMem :=
  { m with
    header := fun x =>
      if x = a then (m.header a).map (fun h => { h with marked := false }) else m.header x }

/-- Store one word at address `a`. -/
def storeWord (m : PageMem) (a v : Nat) : PageMem :=
  { m with word := fun x => if x = a then v else m.word x }

/-- Store `n` words with value `v` at addresses `a, a+8, …, a+8*(n-1)`:
the word-filling loops of the sweeper. -/
def fillWords (m : PageMem) (a v : Nat) : Nat → PageMem
  | 0 => m
  | n + 1 => fillWords (storeWord m a v) (a + kWordSize) v n

/-- An observable read of a mark bit (`RawObject::IsMarked`) at an address,
recording the value read.  Used to account for how often each object's
mark bit is consulted during a sweep. -/
inductive Ev where
  | readMark (a : Nat) (marked : Bool)
deriving DecidableEq

/-- Address of a recorded mark-bit read. -/
def Ev.addr : Ev → Nat
  | .readMark a _ => a

/-- Number of mark-bit reads at address `a` in a trace. -/
def countReads (tr : List Ev) (a : Nat) : Nat :=
  (tr.filter (fun ev => ev.addr == a)).length

/-- Configuration of one `SweepPage` call: the page kind
(`page->type() == HeapPage::kExecutable`), the build flag (`DEBUG`), the
`locked` argument, and the two poison constants. -/
structure SweepCfg where
  isExec : Bool
  debug : Bool
  locked : Bool
  breakFiller : Nat
  zapWord : Nat

/-- The inner run-extension loop of `SweepPage` (sweeper.cc lines 41-49):
starting from `freeEnd`, while `freeEnd < e` read the header there; a
marked header closes the free block, an unmarked one extends it by its
size.  Returns the final `free_end` and the mark-bit reads performed;
`none` models running into an address without an object header, or fuel
exhaustion (a nonterminating scan on an ill-formed page). -/
def extendRun (m : PageMem) (e : Nat) : Nat → Nat → List Ev → Option (Nat × List Ev)
  | 0, _, _ => none
  | fuel + 1, freeEnd, tr =>
    if freeEnd < e then
      match m.header freeEnd with
      | none => none
      | some h =>
        if h.marked then
          some (freeEnd, tr ++ [Ev.readMark freeEnd true])
        else
          extendRun m e fuel (freeEnd + h.size) (tr ++ [Ev.readMark freeEnd false])
    else
      some (freeEnd, tr)

/-- Mutable state threaded through the `SweepPage` scan: the
`used_in_bytes` accumulator, the byte ranges handed to the free list
(address, length, and whether `FreeLocked` rather than `Free` was used),
the page memory, and the mark-bit reads performed so far. -/
structure SweepSt where
  used : Nat
  inserts : List (Nat × Nat × Bool)
  mem : PageMem
  trace : List Ev

/-- The main scan loop of `SweepPage` (sweeper.cc lines 30-74), one fueled
step per loop iteration.  A marked object has its mark cleared and its
size added to `used`; an unmarked object starts a free block that is
extended by `extendRun`, overwritten (break-instruction filler on
executable pages; zap pattern on other pages in debug builds only), and
handed to the free list unless it covers the whole object area.  Returns
the final state and the final scan position. -/
def sweepLoop (cfg : SweepCfg) (s e : Nat) : Nat → Nat → SweepSt → Option (SweepSt × Nat)
  | 0, _, _ => none
  | fuel + 1, c, st =>
    if c < e then
      match st.mem.header c with
      | none => none
      | some h =>
        if h.marked then
          sweepLoop cfg s e fuel (c + h.size)
            { used := st.used + h.size
              inserts := st.inserts
              mem := clearMarkBit st.mem c
              trace := st.trace ++ [Ev.readMark c true] }
        else
          match extendRun st.mem e (e - (c + h.size) + 1) (c + h.size) [] with
          | none => none
          | some (freeEnd, evs) =>
            let objSize := freeEnd - c
            let mem1 :=
              if cfg.isExec then
                fillWords st.mem c cfg.breakFiller ((objSize + 7) / 8)
              else if cfg.debug then
                fillWords st.mem c cfg.zapWord (objSize / 8)
              else st.mem
            let ins1 :=
              if c ≠ s ∨ freeEnd ≠ e then st.inserts ++ [(c, objSize, cfg.locked)]
              else st.inserts
            sweepLoop cfg s e fuel freeEnd
              { used := st.used
                inserts := ins1
                mem := mem1
                trace := st.trace ++ [Ev.readMark c false] ++ evs }
    else
      some (st, c)

/-- Result of one `GCSweeper::SweepPage` call: the value stored by
`page->set_used_in_bytes`, the returned in-use flag, the free-list
insertions performed, the final page memory, the final scan position
(checked against `end` by the source's `ASSERT(current == end)`), and the
mark-bit reads performed. -/
structure SweepPageResult where
  used : Nat
  inUse : Bool
  inserts : List (Nat × Nat × Bool)
  mem : PageMem
  finalPos : Nat
  trace : List Ev

/-- `GCSweeper::SweepPage(page, freelist, locked)` on a page with object
area `[s, e)`.  The fuel `e - s + 1` dominates the iteration count of any
scan over a well-formed page (every object occupies at least one byte). -/
def SweepPage (cfg : SweepCfg) (s e : Nat) (m : PageMem) : Option SweepPageResult :=
  match sweepLoop cfg s e (e - s + 1) s { used := 0, inserts := [], mem := m, trace := [] } with
  | none => none
  | some (st, pos) =>
    some { used := st.used
           inUse := st.used != 0
           inserts := st.inserts
           mem := st.mem
           finalPos := pos
           trace := st.trace }

/-- The `DEBUG`-only trailing-filler walk of `SweepLargePage` (sweeper.cc
lines 91-103): from `c` to the object area's end, check every filler
object is unmarked (a marked filler is a fatal assertion, modelled as
`none`) and poison it with the zap pattern. -/
def fillerWalk (zap e : Nat) : Nat → Nat → PageMem → Option PageMem
  | 0, _, _ => none
  | fuel + 1, c, m =>
    if c < e then
      match m.header c with
      | none => none
      | some h =>
        if h.marked then none
        else
          fillerWalk zap e fuel (c + h.size) (fillWords m c zap (h.size / 8))
    else
      some m

/-- `GCSweeper::SweepLargePage(page)` on a page with object area `[s, e)`:
read the single primary header at `s`; if marked, clear its mark and
return its size in words (`HeapSize() >> kWordSizeLog2`), otherwise
return 0.  In debug builds the trailing filler region is then checked
unmarked and poisoned. -/
def SweepLargePage (debug : Bool) (zap : Nat) (s e : Nat) (m : PageMem) :
    Option (Nat × PageMem) :=
  match m.header s with
  | none => none
  | some h =>
    let wordsToEnd := if h.marked then h.size >>> kWordSizeLog2 else 0
    let m1 := if h.marked then clearMarkBit m s else m
    if debug then
      match fillerWalk zap e (e - (s + h.size) + 1) (s + h.size) m1 with
      | none => none
      | some m2 => some (wordsToEnd, m2)
    else
      some (wordsToEnd, m1)

/-! ### Page layouts as header lists

A well-formed page is described by the list of object headers tiling its
object area.  `layout hdr c objs` says the headers read at the cumulative
addresses starting from `c` are exactly `objs`; this is the data-model
invariant of the spec ("object headers inside `[start, end)` are
contiguous and self-describing"). -/

/-- Sum of the heap sizes of a list of headers. -/
def sumSizes : List RawHeader → Nat
  | [] => 0
  | h :: t => h.size + sumSizes t

/-- Sum of the heap sizes of the marked headers: the live bytes of a page. -/
def markedSize : List RawHeader → Nat
  | [] => 0
  | h :: t => (if h.marked then h.size else 0) + markedSize t

/-- Every header reports a strictly positive heap size (the object-header
contract `heapSize() > 0`). -/
def allPos (objs : List RawHeader) : Prop := ∀ o ∈ objs, 0 < o.size

instance (objs : List RawHeader) : Decidable (allPos objs) :=
  List.decidableBAll _ objs

/-- The headers read from `hdr` at the cumulative addresses starting at `c`
are exactly `objs`. -/
def layout (hdr : Nat → Option RawHeader) : Nat → List RawHeader → Prop
  | _, [] => True
  | c, h :: t => hdr c = some h ∧ layout hdr (c + h.size) t

instance instDecidableLayout (hdr : Nat → Option RawHeader) :
    (c : Nat) → (objs : List RawHeader) → Decidable (layout hdr c objs)
  | _, [] => .isTrue trivial
  | c, h :: t =>
    @instDecidableAnd _ _ inferInstance (instDecidableLayout hdr (c + h.size) t)

/-- Maximal unmarked run at the head of a header list: the objects the
run-extension loop would absorb into one free block. -/
def freeRun : List RawHeader → List RawHeader
  | [] => []
  | h :: t => if h.marked then [] else h :: freeRun t

/-- What remains after the maximal unmarked run at the head. -/
def afterRun : List RawHeader → List RawHeader
  | [] => []
  | h :: t => if h.marked then h :: t else afterRun t

theorem afterRun_length_le : ∀ t : List RawHeader, (afterRun t).length ≤ t.length := by
  intro t
  induction t with
  | nil => simp [afterRun]
  | cons h t ih =>
    by_cases hm : h.marked <;> simp [afterRun, hm] <;> omega

/-- The mark-bit reads of one execution of the run-extension loop started
at address `c` on the remaining headers `t`: one `false` read per run
member, plus one `true` read if the run is closed by a marked object. -/
def runReads (c : Nat) : List RawHeader → List Ev
  | [] => []
  | h :: t =>
    if h.marked then [Ev.readMark c true]
    else Ev.readMark c false :: runReads (c + h.size) t

/-- List-level description of the free-list insertions `SweepPage`
performs when scanning `objs` from address `c` on a page with object area
`[s, e)`: one entry per maximal unmarked run, except a run covering the
whole object area. -/
def insFrom (s e : Nat) (locked : Bool) : Nat → List RawHeader → List (Nat × Nat × Bool)
  | _, [] => []
  | c, h :: t =>
    if h.marked then insFrom s e locked (c + h.size) t
    else
      let len := h.size + sumSizes (freeRun t)
      (if c ≠ s ∨ c + len ≠ e then [(c, len, locked)] else []) ++
        insFrom s e locked (c + len) (afterRun t)
termination_by _ objs => objs.length
decreasing_by
  all_goals simp_wf
  all_goals have h9 := afterRun_length_le t
  all_goals omega

/-- List-level description of the mark-bit reads `SweepPage` performs when
scanning `objs` from address `c`. -/
def trFrom : Nat → List RawHeader → List Ev
  | _, [] => []
  | c, h :: t =>
    if h.marked then Ev.readMark c true :: trFrom (c + h.size) t
    else
      Ev.readMark c false :: runReads (c + h.size) t ++
        trFrom (c + (h.size + sumSizes (freeRun t))) (afterRun t)
termination_by c objs => objs.length
decreasing_by
  all_goals simp_wf
  all_goals have h9 := afterRun_length_le t
  all_goals omega

/-- List-level description of the memory transformation `SweepPage`
applies when scanning `objs` from address `c`: clear the mark of each
marked object, overwrite each maximal unmarked run according to the page
kind and build flag. -/
def memFrom (cfg : SweepCfg) : Nat → List RawHeader → PageMem → PageMem
  | _, [], m => m
  | c, h :: t, m =>
    if h.marked then memFrom cfg (c + h.size) t (clearMarkBit m c)
    else
      let len := h.size + sumSizes (freeRun t)
      let m1 :=
        if cfg.isExec then fillWords m c cfg.breakFiller ((len + 7) / 8)
        else if cfg.debug then fillWords m c cfg.zapWord (len / 8)
        else m
      memFrom cfg (c + len) (afterRun t) m1
termination_by c objs => objs.length
decreasing_by
  all_goals simp_wf
  all_goals have h9 := afterRun_length_le t
  all_goals omega

/-- Addresses of the marked (live) objects of `objs` laid out from `c`. -/
def liveAddrs : Nat → List RawHeader → List Nat
  | _, [] => []
  | c, h :: t =>
    if h.marked then c :: liveAddrs (c + h.size) t else liveAddrs (c + h.size) t

/-- The header map of a page whose object area is tiled by `objs` starting
at address `c`; used to build concrete witness pages. -/
def mkHeaderFun : Nat → List RawHeader → Nat → Option RawHeader
  | _, [], _ => none
  | c, h :: t, x => if x = c then some h else mkHeaderFun (c + h.size) t x

/-- A concrete page memory tiled by `objs` from address 0, with all word
contents initially 0. -/
def mkMem (objs : List RawHeader) : PageMem :=
  { header := mkHeaderFun 0 objs, word := fun _ => 0 }

/-! ### The concurrent sweeper task

`ConcurrentSweeperTask::Run` walks the snapshot of the large-page list and
then the snapshot of the ordinary-page list, sweeping each page.  The
events observable through the old-space coordinator are recorded: each
swept page, each `Notify` on the coordinator's monitor, and the final
completion block (task-count decrement, phase transition to done,
`NotifyAll`). -/

/-- Geometry and memory of one heap page handed to the sweeper task:
`object_start()`, `object_end()`, and its object-area memory. -/
structure PageDesc where
  objStart : Nat
  objEnd : Nat
  mem : PageMem

/-- Events of one `ConcurrentSweeperTask::Run` execution, as observable at
the old-space coordinator. -/
inductive TaskEv where
  | sweptLarge (wordsToEnd : Nat)
  | sweptPage (inUse : Bool)
  | notify
  | completed
deriving DecidableEq

/-- The large-page loop of `ConcurrentSweeperTask::Run` (sweeper.cc lines
143-163): sweep each large page; `words_to_end == 0` means the page is
released, otherwise it is truncated.  No monitor notification happens in
this loop. -/
def runLargePages (debug : Bool) (zap : Nat) : List PageDesc → Option (List TaskEv)
  | [] => some []
  | p :: ps =>
    match SweepLargePage debug zap p.objStart p.objEnd p.mem with
    | none => none
    | some (wordsToEnd, _) =>
      match runLargePages debug zap ps with
      | none => none
      | some evs => some (TaskEv.sweptLarge wordsToEnd :: evs)

/-- The sweep configuration the concurrent task uses for ordinary pages:
data pages (the loop asserts `page->type() == HeapPage::kData`), swept
with `locked = false`. -/
def ordCfg (debug : Bool) (zap breakFiller : Nat) : SweepCfg :=
  { isExec := false, debug := debug, locked := false,
    breakFiller := breakFiller, zapWord := zap }

/-- The ordinary-page loop of `ConcurrentSweeperTask::Run` (sweeper.cc
lines 165-190): sweep each page with `locked = false` on a data page (the
loop asserts `page->type() == HeapPage::kData`), release it if not in use,
and notify the coordinator's monitor after every page. -/
def runOrdPages (debug : Bool) (zap breakFiller : Nat) : List PageDesc → Option (List TaskEv)
  | [] => some []
  | p :: ps =>
    match SweepPage (ordCfg debug zap breakFiller) p.objStart p.objEnd p.mem with
    | none => none
    | some r =>
      match runOrdPages debug zap breakFiller ps with
      | none => none
      | some evs => some (TaskEv.sweptPage r.inUse :: TaskEv.notify :: evs)

/-- The coordinator-observable event trace of one `ConcurrentSweeperTask`
run over the given page-range snapshots.  The constructor asserts the
ordinary range is nonempty (`ASSERT(first_ != NULL)`); a failing sweep
(ill-formed page) poisons the whole trace. -/
def taskTrace (debug : Bool) (zap breakFiller : Nat)
    (larges ords : List PageDesc) : Option (List TaskEv) :=
  if ords.isEmpty then none
  else
    match runLargePages debug zap larges, runOrdPages debug zap breakFiller ords with
    | some l, some o => some (l ++ o ++ [TaskEv.completed])
    | _, _ => none

/-- `PageSpace` phase values (`PageSpace::kMarking/kSweeping/kDone`). -/
inductive SpacePhase where
  | kMarking
  | kSweeping
  | kDone
deriving DecidableEq

/-- The old-space coordination state guarded by `tasks_lock()`: the
outstanding-task count and the collection phase. -/
structure SpaceState where
  tasks : Int
  phase : SpacePhase
deriving DecidableEq

/-- The monitor-protected section of the `ConcurrentSweeperTask`
constructor (sweeper.cc lines 128-131): increment the task count and set
the phase to sweeping. -/
def taskCtor (st : SpaceState) : SpaceState :=
  { tasks := st.tasks + 1, phase := SpacePhase.kSweeping }

/-- Effect of one task event on the shared state.  Only the completion
block (sweeper.cc lines 195-201) touches it: decrement the task count,
assert the phase was sweeping (`none` on violation), set it to done.
Sweeps and notifications leave the state unchanged. -/
def taskEvStep (st : SpaceState) : TaskEv → Option SpaceState
  | .completed =>
    if st.phase = SpacePhase.kSweeping then
      some { tasks := st.tasks - 1, phase := SpacePhase.kDone }
    else none
  | _ => some st

/-- Shared states after each event of a trace, starting from `st`. -/
def statesFrom (st : SpaceState) : List TaskEv → Option (List SpaceState)
  | [] => some []
  | ev :: evs =>
    match taskEvStep st ev with
    | none => none
    | some st' => (statesFrom st' evs).map (st' :: ·)

/-- The sequence of shared states observable under the monitor across one
whole task: the state set by the constructor, then the state after each
event of the run. -/
def taskLife (debug : Bool) (zap breakFiller : Nat)
    (larges ords : List PageDesc) (s0 : SpaceState) : Option (List SpaceState) :=
  match taskTrace debug zap breakFiller larges ords with
  | none => none
  | some evs => (statesFrom (taskCtor s0) evs).map (taskCtor s0 :: ·)

/-- Whether an event is the processing of one page. -/
def isPageEvent : TaskEv → Bool
  | .sweptLarge _ => true
  | .sweptPage _ => true
  | _ => false

/-- Every page-processing event is immediately followed by a monitor
notification (the reading of the claim "a waiter is notified after every
single page is processed, both large and ordinary"). -/
def notifiedAfterEachPage : List TaskEv → Bool
  | [] => true
  | ev :: evs =>
    if isPageEvent ev then
      match evs with
      | TaskEv.notify :: _ => notifiedAfterEachPage evs
      | _ => false
    else notifiedAfterEachPage evs

/-- Every ordinary-page event is immediately followed by a monitor
notification. -/
def notifiedAfterEachOrdPage : List TaskEv → Bool
  | [] => true
  | ev :: evs =>
    match ev with
    | TaskEv.sweptPage _ =>
      match evs with
      | TaskEv.notify :: _ => notifiedAfterEachOrdPage evs
      | _ => false
    | _ => notifiedAfterEachOrdPage evs

/-! ### Basic lemmas about sizes, runs and layouts -/

theorem sumSizes_append (xs ys : List RawHeader) :
    sumSizes (xs ++ ys) = sumSizes xs + sumSizes ys := by
  induction xs with
  | nil => simp [sumSizes]
  | cons h t ih => simp [sumSizes, ih]; omega

theorem markedSize_append (xs ys : List RawHeader) :
    markedSize (xs ++ ys) = markedSize xs + markedSize ys := by
  induction xs with
  | nil => simp [markedSize]
  | cons h t ih => simp [markedSize, ih]; omega

theorem length_le_sumSizes {l : List RawHeader} (hp : allPos l) :
    l.length ≤ sumSizes l := by
  induction l with
  | nil => simp [sumSizes]
  | cons h t ih =>
    have h1 : 0 < h.size := hp h (by simp)
    have h2 : t.length ≤ sumSizes t := ih (fun o ho => hp o (by simp [ho]))
    simp only [List.length_cons, sumSizes]
    omega

theorem sumSizes_pos {l : List RawHeader} (hp : allPos l) (hne : l ≠ []) :
    0 < sumSizes l := by
  cases l with
  | nil => exact absurd rfl hne
  | cons h t =>
    have := hp h (by simp)
    simp only [sumSizes]; omega

theorem freeRun_append_afterRun (t : List RawHeader) :
    freeRun t ++ afterRun t = t := by
  induction t with
  | nil => simp [freeRun, afterRun]
  | cons h t ih =>
    by_cases hm : h.marked <;> simp [freeRun, afterRun, hm, ih]

theorem freeRun_unmarked {t : List RawHeader} :
    ∀ o ∈ freeRun t, o.marked = false := by
  induction t with
  | nil => simp [freeRun]
  | cons h t ih =>
    intro o ho
    by_cases hm : h.marked
    · simp [freeRun, hm] at ho
    · simp only [Bool.not_eq_true] at hm
      simp only [freeRun, hm, Bool.false_eq_true, if_false, List.mem_cons] at ho
      rcases ho with rfl | ho
      · exact hm
      · exact ih o ho

theorem mem_afterRun {t : List RawHeader} {o : RawHeader} (ho : o ∈ afterRun t) :
    o ∈ t := by
  rw [← freeRun_append_afterRun t]
  exact List.mem_append.mpr (Or.inr ho)

theorem mem_freeRun {t : List RawHeader} {o : RawHeader} (ho : o ∈ freeRun t) :
    o ∈ t := by
  rw [← freeRun_append_afterRun t]
  exact List.mem_append.mpr (Or.inl ho)

/-- Whether a header list is empty or starts with a marked header: the
boundary condition closing a maximal unmarked run on its right. -/
def headMarked : List RawHeader → Bool
  | [] => true
  | h :: _ => h.marked

/-- Whether a header list is empty or ends with a marked header: the
boundary condition closing a maximal unmarked run on its left. -/
def endsMarked (l : List RawHeader) : Bool :=
  match l.getLast? with
  | none => true
  | some q => q.marked

/-- Whether a nonempty header list ends with an unmarked header: the
object after it is immediately preceded by a garbage run. -/
def endsUnmarked (l : List RawHeader) : Bool :=
  match l.getLast? with
  | none => false
  | some q => !q.marked

theorem afterRun_headMarked (t : List RawHeader) : headMarked (afterRun t) = true := by
  induction t with
  | nil => simp [afterRun, headMarked]
  | cons h t ih =>
    by_cases hm : h.marked
    · simp [afterRun, hm, headMarked]
    · simpa only [afterRun, hm, Bool.false_eq_true, if_false] using ih

theorem freeRun_append_of_marked_mem {xs : List RawHeader} (ys : List RawHeader)
    (hx : ∃ x ∈ xs, x.marked = true) :
    freeRun (xs ++ ys) = freeRun xs ∧ afterRun (xs ++ ys) = afterRun xs ++ ys := by
  induction xs with
  | nil => simp at hx
  | cons h t ih =>
    by_cases hm : h.marked
    · simp [freeRun, afterRun, hm]
    · obtain ⟨x, hx1, hx2⟩ := hx
      rcases List.mem_cons.mp hx1 with rfl | hx1
      · exact absurd hx2 (by simpa using hm)
      · obtain ⟨ih1, ih2⟩ := ih ⟨x, hx1, hx2⟩
        simp [freeRun, afterRun, hm, ih1, ih2]

theorem freeRun_append_of_unmarked (xs ys : List RawHeader)
    (hx : ∀ x ∈ xs, x.marked = false) (hy : headMarked ys = true) :
    freeRun (xs ++ ys) = xs ∧ afterRun (xs ++ ys) = ys := by
  induction xs with
  | nil =>
    cases ys with
    | nil => simp [freeRun, afterRun]
    | cons h t =>
      simp only [headMarked] at hy
      simp [freeRun, afterRun, hy]
  | cons h t ih =>
    have hm : h.marked = false := hx h (by simp)
    obtain ⟨ih1, ih2⟩ := ih (fun x hxt => hx x (by simp [hxt]))
    simp [freeRun, afterRun, hm, ih1, ih2]

theorem freeRun_of_all_unmarked {t : List RawHeader} (hx : ∀ x ∈ t, x.marked = false) :
    freeRun t = t ∧ afterRun t = [] := by
  have := freeRun_append_of_unmarked t [] hx (by simp [headMarked])
  simpa using this

theorem afterRun_getLast? {t : List RawHeader} (hne : afterRun t ≠ []) :
    (afterRun t).getLast? = t.getLast? := by
  conv => rhs; rw [← freeRun_append_afterRun t]
  exact (List.getLast?_append_of_ne_nil _ hne).symm

theorem afterRun_ne_nil_of_marked_mem {t : List RawHeader}
    (hx : ∃ x ∈ t, x.marked = true) : afterRun t ≠ [] := by
  intro hcon
  obtain ⟨x, hx1, hx2⟩ := hx
  rw [← freeRun_append_afterRun t, hcon, List.append_nil] at hx1
  rw [freeRun_unmarked x hx1] at hx2
  exact Bool.false_ne_true hx2

theorem mem_of_getLast?_eq {α : Type} {l : List α} {q : α} (hq : l.getLast? = some q) :
    q ∈ l := by
  have hd := List.dropLast_append_getLast? q (by rw [hq]; rfl)
  rw [← hd]
  simp

theorem marked_mem_of_endsMarked {l : List RawHeader} (hne : l ≠ [])
    (he : endsMarked l = true) : ∃ x ∈ l, x.marked = true := by
  unfold endsMarked at he
  obtain ⟨q, hq⟩ := Option.isSome_iff_exists.mp (List.getLast?_isSome.mpr hne)
  rw [hq] at he
  exact ⟨q, mem_of_getLast?_eq hq, he⟩

theorem sumSizes_run_split (t : List RawHeader) :
    sumSizes t = sumSizes (freeRun t) + sumSizes (afterRun t) := by
  conv => lhs; rw [← freeRun_append_afterRun t]
  exact sumSizes_append _ _

theorem markedSize_eq_zero {l : List RawHeader} (h : ∀ o ∈ l, o.marked = false) :
    markedSize l = 0 := by
  induction l with
  | nil => rfl
  | cons x t ih =>
    simp [markedSize, h x (by simp), ih (fun o ho => h o (by simp [ho]))]

theorem markedSize_afterRun (t : List RawHeader) :
    markedSize t = markedSize (afterRun t) := by
  conv => lhs; rw [← freeRun_append_afterRun t]
  rw [markedSize_append, markedSize_eq_zero freeRun_unmarked]
  omega

/-! ### Pointwise lemmas about memory operations and layouts -/

theorem clearMarkBit_header_ne (m : PageMem) (a : Nat) {x : Nat} (hx : x ≠ a) :
    (clearMarkBit m a).header x = m.header x := by
  simp [clearMarkBit, hx]

theorem clearMarkBit_header_self (m : PageMem) (a : Nat) :
    (clearMarkBit m a).header a = (m.header a).map (fun h => { h with marked := false }) := by
  simp [clearMarkBit]

theorem clearMarkBit_word (m : PageMem) (a : Nat) :
    (clearMarkBit m a).word = m.word := rfl

theorem storeWord_header (m : PageMem) (a v : Nat) :
    (storeWord m a v).header = m.header := rfl

theorem fillWords_header (m : PageMem) (v : Nat) :
    ∀ (n a : Nat), (fillWords m a v n).header = m.header := by
  intro n
  induction n generalizing m with
  | zero => intro a; rfl
  | succ n ih => intro a; simpa [fillWords] using ih (storeWord m a v) (a + kWordSize)

theorem fillWords_word (v : Nat) :
    ∀ (n : Nat) (m : PageMem) (a x : Nat),
      (fillWords m a v n).word x =
        if ∃ k, k < n ∧ x = a + kWordSize * k then v else m.word x := by
  intro n
  induction n with
  | zero => intro m a x; simp [fillWords]
  | succ n ih =>
    intro m a x
    simp only [fillWords]
    rw [ih (storeWord m a v) (a + kWordSize)]
    by_cases hx : x = a
    · subst hx
      have h1 : ¬ ∃ k, k < n ∧ x = x + kWordSize + kWordSize * k := by
        rintro ⟨k, _, hk⟩
        simp only [kWordSize] at hk
        omega
      have h2 : ∃ k, k < n + 1 ∧ x = x + kWordSize * k := ⟨0, by omega, by simp⟩
      simp only [h1, if_false, h2, if_true, storeWord]
    · have hiff : (∃ k, k < n ∧ x = a + kWordSize + kWordSize * k) ↔
          (∃ k, k < n + 1 ∧ x = a + kWordSize * k) := by
        constructor
        · rintro ⟨k, hk1, hk2⟩
          refine ⟨k + 1, by omega, ?_⟩
          simp only [kWordSize] at hk2 ⊢
          omega
        · rintro ⟨k, hk1, hk2⟩
          match k with
          | 0 => exact absurd (by simpa using hk2) hx
          | k + 1 =>
            refine ⟨k, by omega, ?_⟩
            simp only [kWordSize] at hk2 ⊢
            omega
      have hsw : (storeWord m a v).word x = m.word x := by simp [storeWord, hx]
      rw [hsw]
      by_cases hex : ∃ k, k < n ∧ x = a + kWordSize + kWordSize * k
      · simp only [hex, if_true, hiff.mp hex, if_true]
      · have hex2 : ¬ ∃ k, k < n + 1 ∧ x = a + kWordSize * k := fun h => hex (hiff.mpr h)
        simp only [hex, if_false, hex2, if_false]

theorem layout_append {hdr : Nat → Option RawHeader} (xs ys : List RawHeader) :
    ∀ c, layout hdr c (xs ++ ys) ↔ layout hdr c xs ∧ layout hdr (c + sumSizes xs) ys := by
  induction xs with
  | nil => intro c; simp [layout, sumSizes]
  | cons h t ih =>
    intro c
    simp only [List.cons_append, layout, sumSizes, List.append_eq]
    rw [ih (c + h.size), ← Nat.add_assoc]
    tauto

theorem layout_congr {hdr hdr2 : Nat → Option RawHeader} :
    ∀ (objs : List RawHeader) (c : Nat), (∀ x, c ≤ x → hdr2 x = hdr x) →
      layout hdr c objs → layout hdr2 c objs := by
  intro objs
  induction objs with
  | nil => intro c _ _; trivial
  | cons h t ih =>
    intro c hag hl
    obtain ⟨h1, h2⟩ := hl
    refine ⟨?_, ih (c + h.size) (fun x hx => hag x (by omega)) h2⟩
    rw [hag c le_rfl]
    exact h1

/-! ### Specification of the run-extension loop -/

theorem extendRun_spec {m : PageMem} {e : Nat} :
    ∀ (t : List RawHeader) (fe fuel : Nat) (tr : List Ev),
      layout m.header fe t → allPos t → fe + sumSizes t = e → t.length < fuel →
      extendRun m e fuel fe tr =
        some (fe + sumSizes (freeRun t), tr ++ runReads fe t) := by
  intro t
  induction t with
  | nil =>
    intro fe fuel tr _ _ he hf
    cases fuel with
    | zero => exact absurd hf (by omega)
    | succ fuel =>
      have hnlt : ¬ fe < e := by simp only [sumSizes] at he; omega
      simp [extendRun, hnlt, freeRun, runReads, sumSizes]
  | cons h t ih =>
    intro fe fuel tr hl hp he hf
    obtain ⟨h1, h2⟩ := hl
    have hpos : 0 < h.size := hp h (by simp)
    have hlt : fe < e := by simp only [sumSizes] at he; omega
    cases fuel with
    | zero => exact absurd hf (by omega)
    | succ fuel =>
      simp only [extendRun, if_pos hlt, h1]
      by_cases hm : h.marked
      · simp [hm, freeRun, runReads, sumSizes]
      · have hm2 : h.marked = false := by simpa using hm
        rw [hm2]
        simp only [Bool.false_eq_true, if_false]
        rw [ih (fe + h.size) fuel (tr ++ [Ev.readMark fe false]) h2
          (fun o ho => hp o (by simp [ho]))
          (by simp only [sumSizes] at he; omega)
          (by simp only [List.length_cons] at hf; omega)]
        simp only [freeRun, hm2, Bool.false_eq_true, if_false, sumSizes, runReads,
          List.append_assoc, List.singleton_append, Nat.add_assoc]

/-! ### Step equations for the list-level sweep description -/

theorem insFrom_nil (s e : Nat) (lk : Bool) (c : Nat) : insFrom s e lk c [] = [] := by
  rw [insFrom]

theorem insFrom_cons_marked (s e : Nat) (lk : Bool) (c : Nat) {h : RawHeader}
    (t : List RawHeader) (hm : h.marked = true) :
    insFrom s e lk c (h :: t) = insFrom s e lk (c + h.size) t := by
  rw [insFrom]
  simp [hm]

theorem insFrom_cons_unmarked (s e : Nat) (lk : Bool) (c : Nat) {h : RawHeader}
    (t : List RawHeader) (hm : h.marked = false) :
    insFrom s e lk c (h :: t) =
      (if c ≠ s ∨ c + (h.size + sumSizes (freeRun t)) ≠ e then
        [(c, h.size + sumSizes (freeRun t), lk)] else []) ++
        insFrom s e lk (c + (h.size + sumSizes (freeRun t))) (afterRun t) := by
  rw [insFrom]
  simp [hm]

theorem trFrom_nil (c : Nat) : trFrom c [] = [] := by
  rw [trFrom]

theorem trFrom_cons_marked (c : Nat) {h : RawHeader} (t : List RawHeader)
    (hm : h.marked = true) :
    trFrom c (h :: t) = Ev.readMark c true :: trFrom (c + h.size) t := by
  rw [trFrom]
  simp [hm]

theorem trFrom_cons_unmarked (c : Nat) {h : RawHeader} (t : List RawHeader)
    (hm : h.marked = false) :
    trFrom c (h :: t) =
      Ev.readMark c false :: runReads (c + h.size) t ++
        trFrom (c + (h.size + sumSizes (freeRun t))) (afterRun t) := by
  rw [trFrom]
  simp [hm]

theorem memFrom_nil (cfg : SweepCfg) (c : Nat) (m : PageMem) : memFrom cfg c [] m = m := by
  rw [memFrom]

theorem memFrom_cons_marked (cfg : SweepCfg) (c : Nat) {h : RawHeader}
    (t : List RawHeader) (m : PageMem) (hm : h.marked = true) :
    memFrom cfg c (h :: t) m = memFrom cfg (c + h.size) t (clearMarkBit m c) := by
  rw [memFrom]
  simp [hm]

theorem memFrom_cons_unmarked (cfg : SweepCfg) (c : Nat) {h : RawHeader}
    (t : List RawHeader) (m : PageMem) (hm : h.marked = false) :
    memFrom cfg c (h :: t) m =
      memFrom cfg (c + (h.size + sumSizes (freeRun t))) (afterRun t)
        (if cfg.isExec then
          fillWords m c cfg.breakFiller ((h.size + sumSizes (freeRun t) + 7) / 8)
        else if cfg.debug then
          fillWords m c cfg.zapWord ((h.size + sumSizes (freeRun t)) / 8)
        else m) := by
  rw [memFrom]
  simp [hm]

/-! ### The bridge: the fueled scan loop computes the list-level description -/

theorem sweepLoop_spec (cfg : SweepCfg) (s e : Nat) :
    ∀ (fuel : Nat) (objs : List RawHeader) (c u : Nat)
      (ins : List (Nat × Nat × Bool)) (m : PageMem) (tr : List Ev),
      layout m.header c objs → allPos objs → c + sumSizes objs = e →
      objs.length < fuel →
      sweepLoop cfg s e fuel c ⟨u, ins, m, tr⟩ =
        some (⟨u + markedSize objs, ins ++ insFrom s e cfg.locked c objs,
               memFrom cfg c objs m, tr ++ trFrom c objs⟩, e) := by
  intro fuel
  induction fuel with
  | zero => intro objs c u ins m tr _ _ _ hf; exact absurd hf (by omega)
  | succ fuel ih =>
    intro objs c u ins m tr hl hp he hf
    cases objs with
    | nil =>
      have hce : c = e := by simpa [sumSizes] using he
      have hnlt : ¬ c < e := by omega
      simp [sweepLoop, hnlt, markedSize, insFrom_nil, memFrom_nil, trFrom_nil, hce]
    | cons h t =>
      obtain ⟨h1, h2⟩ := hl
      have hpos : 0 < h.size := hp h (by simp)
      have hlt : c < e := by simp only [sumSizes] at he; omega
      have hpt : allPos t := fun o ho => hp o (by simp [ho])
      have hfl : t.length < fuel := by simp only [List.length_cons] at hf; omega
      by_cases hm : h.marked
      · simp only [sweepLoop, if_pos hlt, h1, hm, if_true]
        rw [ih t (c + h.size) (u + h.size) ins (clearMarkBit m c)
          (tr ++ [Ev.readMark c true])
          (layout_congr t (c + h.size)
            (fun x hx => clearMarkBit_header_ne m c (by omega)) h2)
          hpt (by simp only [sumSizes] at he; omega) hfl]
        rw [insFrom_cons_marked s e cfg.locked c t hm,
          memFrom_cons_marked cfg c t m hm, trFrom_cons_marked c t hm]
        simp only [markedSize, hm, if_true, ← Nat.add_assoc, List.append_assoc,
          List.singleton_append]
      · have hm2 : h.marked = false := by simpa using hm
        have hle : t.length < e - (c + h.size) + 1 := by
          have := length_le_sumSizes hpt
          simp only [sumSizes] at he
          omega
        simp only [sweepLoop, if_pos hlt, h1, hm2, Bool.false_eq_true, if_false]
        rw [extendRun_spec t (c + h.size) (e - (c + h.size) + 1) [] h2 hpt
          (by simp only [sumSizes] at he; omega) hle]
        have hfe : c + h.size + sumSizes (freeRun t) - c = h.size + sumSizes (freeRun t) := by
          omega
        have hlaft : layout m.header (c + h.size + sumSizes (freeRun t)) (afterRun t) := by
          have hsplit : layout m.header (c + h.size) (freeRun t ++ afterRun t) := by
            rw [freeRun_append_afterRun]; exact h2
          exact ((layout_append (freeRun t) (afterRun t) (c + h.size)).mp hsplit).2
        have hpaft : allPos (afterRun t) := fun o ho => hpt o (mem_afterRun ho)
        have heaft : c + h.size + sumSizes (freeRun t) + sumSizes (afterRun t) = e := by
          have := sumSizes_run_split t
          simp only [sumSizes] at he
          omega
        have hfaft : (afterRun t).length < fuel := by
          have := afterRun_length_le t
          omega
        simp only [List.nil_append, hfe]
        have hm1h : (if cfg.isExec then
              fillWords m c cfg.breakFiller ((h.size + sumSizes (freeRun t) + 7) / 8)
            else if cfg.debug then
              fillWords m c cfg.zapWord ((h.size + sumSizes (freeRun t)) / 8)
            else m).header = m.header := by
          by_cases hx : cfg.isExec
          · simp [hx, fillWords_header]
          · by_cases hd : cfg.debug <;> simp [hx, hd, fillWords_header]
        rw [ih (afterRun t) (c + h.size + sumSizes (freeRun t)) u
          (if c ≠ s ∨ c + h.size + sumSizes (freeRun t) ≠ e then
            ins ++ [(c, h.size + sumSizes (freeRun t), cfg.locked)] else ins)
          _ (tr ++ [Ev.readMark c false] ++ runReads (c + h.size) t)
          (layout_congr (afterRun t) _ (fun y _ => by rw [hm1h]) hlaft)
          hpaft heaft hfaft]
        rw [insFrom_cons_unmarked s e cfg.locked c t hm2,
          memFrom_cons_unmarked cfg c t m hm2, trFrom_cons_unmarked c t hm2]
        simp only [markedSize, hm2, Bool.false_eq_true, if_false, Nat.zero_add,
          markedSize_afterRun t, ← Nat.add_assoc, List.append_assoc,
          List.singleton_append, List.nil_append]
        by_cases hg : c ≠ s ∨ c + h.size + sumSizes (freeRun t) ≠ e
        · simp [hg, List.append_assoc]
        · simp [hg]

/-- `SweepPage` on a page tiled by `objs`: the canonical description of its
result, from which all page-level properties follow. -/
theorem SweepPage_spec (cfg : SweepCfg) (s e : Nat) (m : PageMem) (objs : List RawHeader)
    (hl : layout m.header s objs) (hp : allPos objs) (he : s + sumSizes objs = e) :
    SweepPage cfg s e m =
      some { used := markedSize objs
             inUse := markedSize objs != 0
             inserts := insFrom s e cfg.locked s objs
             mem := memFrom cfg s objs m
             finalPos := e
             trace := trFrom s objs } := by
  unfold SweepPage
  rw [sweepLoop_spec cfg s e (e - s + 1) objs s 0 [] m [] hl hp he
    (by have := length_le_sumSizes hp; omega)]
  simp

/-- Induction over a header list following the sweep's consumption order:
a marked head is consumed alone, an unmarked head is consumed together
with the maximal unmarked run it starts. -/
theorem consumeInduction (motive : List RawHeader → Prop)
    (base : motive [])
    (stepM : ∀ p t, p.marked = true → motive t → motive (p :: t))
    (stepU : ∀ p t, p.marked = false → motive (afterRun t) → motive (p :: t)) :
    ∀ l, motive l := by
  have H : ∀ (n : Nat) (l : List RawHeader), l.length ≤ n → motive l := by
    intro n
    induction n with
    | zero =>
      intro l hl
      have : l = [] := List.eq_nil_of_length_eq_zero (by omega)
      rw [this]
      exact base
    | succ n ih =>
      intro l hl
      cases l with
      | nil => exact base
      | cons p t =>
        by_cases hm : p.marked
        · exact stepM p t hm (ih t (by simp only [List.length_cons] at hl; omega))
        · refine stepU p t (by simpa using hm) (ih (afterRun t) ?_)
          have := afterRun_length_le t
          simp only [List.length_cons] at hl
          omega
  exact fun l => H l.length l le_rfl

/-! ### Properties of the insertion description -/

theorem insFrom_bounds (s e : Nat) (lk : Bool) :
    ∀ (objs : List RawHeader) (c : Nat), allPos objs →
      ∀ p ∈ insFrom s e lk c objs,
        ¬(p.1 = s ∧ p.1 + p.2.1 = e) ∧ c ≤ p.1 ∧
          p.1 + p.2.1 ≤ c + sumSizes objs ∧ 0 < p.2.1 := by
  intro objs
  induction objs using consumeInduction with
  | base => intro c _ p hp2; simp [insFrom_nil] at hp2
  | stepM q t hq ih =>
    intro c hp p hp2
    rw [insFrom_cons_marked s e lk c t hq] at hp2
    have hqs : 0 < q.size := hp q (by simp)
    obtain ⟨b1, b2, b3, b4⟩ := ih (c + q.size) (fun o ho => hp o (by simp [ho])) p hp2
    refine ⟨b1, by omega, ?_, b4⟩
    simp only [sumSizes]
    omega
  | stepU q t hq ih =>
    intro c hp p hp2
    rw [insFrom_cons_unmarked s e lk c t hq] at hp2
    have hqs : 0 < q.size := hp q (by simp)
    have hsplit := sumSizes_run_split t
    rcases List.mem_append.mp hp2 with hin | hin
    · by_cases hg : c ≠ s ∨ c + (q.size + sumSizes (freeRun t)) ≠ e
      · rw [if_pos hg] at hin
        simp only [List.mem_singleton] at hin
        subst hin
        refine ⟨by tauto, le_rfl, ?_, by simp; omega⟩
        simp only [sumSizes]
        omega
      · rw [if_neg hg] at hin
        simp at hin
    · obtain ⟨b1, b2, b3, b4⟩ := ih (c + (q.size + sumSizes (freeRun t)))
        (fun o ho => hp o (by simp [mem_afterRun ho])) p hin
      refine ⟨b1, by omega, ?_, b4⟩
      simp only [sumSizes]
      omega

theorem endsMarked_cons (q : RawHeader) {l : List RawHeader} (hne : l ≠ []) :
    endsMarked (q :: l) = endsMarked l := by
  unfold endsMarked
  rw [show q :: l = [q] ++ l from rfl, List.getLast?_append_of_ne_nil _ hne]

theorem endsUnmarked_cons (q : RawHeader) {l : List RawHeader} (hne : l ≠ []) :
    endsUnmarked (q :: l) = endsUnmarked l := by
  unfold endsUnmarked
  rw [show q :: l = [q] ++ l from rfl, List.getLast?_append_of_ne_nil _ hne]

/-- For one maximal unmarked run inside a page tiling (`pre` before it ends
marked, the run itself is nonempty and unmarked, `post` after it starts
marked), the insertion description contains the single coalesced entry for
the run exactly when the run does not span the whole area `[s, e)`, counts
exactly one entry at the run's address in that case, and contains no entry
starting strictly inside the run. -/
theorem insFrom_run_spec (s e : Nat) (lk : Bool) :
    ∀ (pre : List RawHeader), ∀ (run post : List RawHeader) (c : Nat),
      allPos (pre ++ run ++ post) →
      endsMarked pre = true →
      run ≠ [] → (∀ o ∈ run, o.marked = false) →
      headMarked post = true →
      (((c + sumSizes pre, sumSizes run, lk) ∈ insFrom s e lk c (pre ++ run ++ post)) ↔
        ¬(c + sumSizes pre = s ∧ c + sumSizes pre + sumSizes run = e)) ∧
      (List.countP (fun p => p.1 == c + sumSizes pre)
          (insFrom s e lk c (pre ++ run ++ post)) =
        if c + sumSizes pre = s ∧ c + sumSizes pre + sumSizes run = e then 0 else 1) ∧
      (∀ p ∈ insFrom s e lk c (pre ++ run ++ post),
        ¬(c + sumSizes pre < p.1 ∧ p.1 < c + sumSizes pre + sumSizes run)) := by
  intro pre
  induction pre using consumeInduction with
  | base =>
    intro run post c hp _ hrne hrun hpost
    cases run with
    | nil => exact absurd rfl hrne
    | cons r run2 =>
      have hr : r.marked = false := hrun r (by simp)
      have hrun2 : ∀ o ∈ run2, o.marked = false := fun o ho => hrun o (by simp [ho])
      obtain ⟨hfr, har⟩ := freeRun_append_of_unmarked run2 post hrun2 hpost
      have hrs : 0 < r.size := hp r (by simp)
      simp only [List.nil_append, sumSizes, Nat.add_zero, Nat.zero_add] at *
      rw [show (r :: run2) ++ post = r :: (run2 ++ post) from rfl,
        insFrom_cons_unmarked s e lk c (run2 ++ post) hr, hfr, har]
      have hlen : r.size + sumSizes run2 = sumSizes (r :: run2) := by simp [sumSizes]
      have htail := insFrom_bounds s e lk post (c + (r.size + sumSizes run2))
        (fun o ho => hp o (by simp [ho]))
      constructor
      · constructor
        · intro hmem
          rcases List.mem_append.mp hmem with hin | hin
          · by_cases hg : c ≠ s ∨ c + (r.size + sumSizes run2) ≠ e
            · rw [hlen] at hg; tauto
            · rw [if_neg hg] at hin; simp at hin
          · obtain ⟨_, b2, _, _⟩ := htail _ hin
            simp only [sumSizes] at b2
            omega
        · intro hne
          apply List.mem_append.mpr
          left
          have hg : c ≠ s ∨ c + (r.size + sumSizes run2) ≠ e := by
            simp only [sumSizes] at hne
            tauto
          rw [if_pos hg]
          simp [sumSizes]
      · constructor
        · rw [List.countP_append]
          have htail0 : List.countP (fun p => p.1 == c)
              (insFrom s e lk (c + (r.size + sumSizes run2)) post) = 0 := by
            rw [List.countP_eq_zero]
            intro p hin
            obtain ⟨_, b2, _, _⟩ := htail p hin
            simp only [beq_iff_eq]
            omega
          rw [htail0]
          by_cases hg : c ≠ s ∨ c + (r.size + sumSizes run2) ≠ e
          · rw [if_pos hg, if_neg (show ¬ (c = s ∧ c + (r.size + sumSizes run2) = e) by tauto)]
            simp
          · rw [if_neg hg, if_pos (show c = s ∧ c + (r.size + sumSizes run2) = e by tauto)]
            simp
        · intro p hmem
          rcases List.mem_append.mp hmem with hin | hin
          · by_cases hg : c ≠ s ∨ c + (r.size + sumSizes run2) ≠ e
            · rw [if_pos hg] at hin
              simp only [List.mem_singleton] at hin
              subst hin
              simp
            · rw [if_neg hg] at hin; simp at hin
          · obtain ⟨_, b2, _, _⟩ := htail _ hin
            omega
  | stepM q pre2 hq ih =>
    intro run post c hp hpre hrne hrun hpost
    have hqs : 0 < q.size := hp q (by simp)
    have hpre2 : endsMarked pre2 = true := by
      by_cases hne : pre2 = []
      · rw [hne]; rfl
      · rwa [endsMarked_cons q hne] at hpre
    have hp2 : allPos (pre2 ++ run ++ post) := fun o ho => hp o (by
      simp only [List.cons_append, List.mem_cons, List.append_assoc, List.mem_append] at ho ⊢
      tauto)
    obtain ⟨i1, i2, i3⟩ := ih run post (c + q.size) hp2 hpre2 hrne hrun hpost
    rw [show (q :: pre2) ++ run ++ post = q :: (pre2 ++ run ++ post) from by simp] at *
    rw [insFrom_cons_marked s e lk c (pre2 ++ run ++ post) hq]
    have haddr : c + sumSizes (q :: pre2) = c + q.size + sumSizes pre2 := by
      simp only [sumSizes]; omega
    rw [haddr]
    exact ⟨i1, i2, i3⟩
  | stepU q pre2 hq ih =>
    intro run post c hp hpre hrne hrun hpost
    have hqs : 0 < q.size := hp q (by simp)
    have hne2 : pre2 ≠ [] := by
      rintro rfl
      simp [endsMarked, List.getLast?_singleton, hq] at hpre
    have hpre2 : endsMarked pre2 = true := by rwa [endsMarked_cons q hne2] at hpre
    have hmm : ∃ x ∈ pre2, x.marked = true := marked_mem_of_endsMarked hne2 hpre2
    obtain ⟨hfr, har⟩ := freeRun_append_of_marked_mem (run ++ post) hmm
    have hane : afterRun pre2 ≠ [] := afterRun_ne_nil_of_marked_mem hmm
    have hpreA : endsMarked (afterRun pre2) = true := by
      unfold endsMarked
      rw [afterRun_getLast? hane]
      unfold endsMarked at hpre2
      exact hpre2
    have hpA : allPos (afterRun pre2 ++ run ++ post) := fun o ho => hp o (by
      simp only [List.cons_append, List.mem_cons, List.append_assoc, List.mem_append] at ho ⊢
      rcases ho with h1 | h1 | h1
      · exact Or.inr (Or.inl (mem_afterRun h1))
      · tauto
      · tauto)
    have hsum2 := sumSizes_run_split pre2
    obtain ⟨i1, i2, i3⟩ := ih run post (c + (q.size + sumSizes (freeRun pre2))) hpA hpreA
      hrne hrun hpost
    have haddr : c + (q.size + sumSizes (freeRun pre2)) + sumSizes (afterRun pre2) =
        c + sumSizes (q :: pre2) := by
      simp only [sumSizes]; omega
    rw [haddr] at i1 i2 i3
    have hAgt : c < c + sumSizes (q :: pre2) := by
      simp only [sumSizes]; omega
    rw [show (q :: pre2) ++ run ++ post = q :: (pre2 ++ (run ++ post)) from by simp] at *
    rw [insFrom_cons_unmarked s e lk c (pre2 ++ (run ++ post)) hq, hfr, har]
    rw [show afterRun pre2 ++ run ++ post = afterRun pre2 ++ (run ++ post) from by simp] at i1 i2 i3
    constructor
    · constructor
      · intro hmem
        rcases List.mem_append.mp hmem with hin | hin
        · by_cases hg : c ≠ s ∨ c + (q.size + sumSizes (freeRun pre2)) ≠ e
          · rw [if_pos hg] at hin
            simp only [List.mem_singleton, Prod.mk.injEq] at hin
            omega
          · rw [if_neg hg] at hin; simp at hin
        · exact i1.mp hin
      · intro hcond
        apply List.mem_append.mpr
        right
        exact i1.mpr hcond
    · constructor
      · rw [List.countP_append]
        have hhead0 : List.countP (fun p => p.1 == c + sumSizes (q :: pre2))
            (if c ≠ s ∨ c + (q.size + sumSizes (freeRun pre2)) ≠ e then
              [(c, q.size + sumSizes (freeRun pre2), lk)] else []) = 0 := by
          by_cases hg : c ≠ s ∨ c + (q.size + sumSizes (freeRun pre2)) ≠ e
          · rw [if_pos hg]
            simp only [List.countP_singleton, beq_iff_eq]
            rw [if_neg (by omega)]
          · rw [if_neg hg]; rfl
        rw [hhead0, Nat.zero_add]
        exact i2
      · intro p hmem
        rcases List.mem_append.mp hmem with hin | hin
        · by_cases hg : c ≠ s ∨ c + (q.size + sumSizes (freeRun pre2)) ≠ e
          · rw [if_pos hg] at hin
            simp only [List.mem_singleton] at hin
            subst hin
            simp only []
            omega
          · rw [if_neg hg] at hin; simp at hin
        · exact i3 p hin

/-- A page that is entirely one garbage run produces no free-list entry. -/
theorem insFrom_eq_nil_of_all_unmarked (s e : Nat) (lk : Bool) (objs : List RawHeader)
    (hne : objs ≠ []) (hall : ∀ o ∈ objs, o.marked = false)
    (he : s + sumSizes objs = e) :
    insFrom s e lk s objs = [] := by
  cases objs with
  | nil => exact absurd rfl hne
  | cons h t =>
    have hm : h.marked = false := hall h (by simp)
    obtain ⟨hfr, har⟩ := @freeRun_of_all_unmarked t
      (fun o ho => hall o (List.mem_cons_of_mem h ho))
    rw [insFrom_cons_unmarked s e lk s t hm, hfr, har]
    rw [if_neg (by simp only [sumSizes] at he; omega), insFrom_nil]
    simp

/-! ### Properties of the memory description -/

theorem liveAddrs_ge : ∀ (objs : List RawHeader) (c a : Nat),
    a ∈ liveAddrs c objs → c ≤ a := by
  intro objs
  induction objs with
  | nil => intro c a ha; simp [liveAddrs] at ha
  | cons h t ih =>
    intro c a ha
    by_cases hm : h.marked
    · simp only [liveAddrs, hm, if_true, List.mem_cons] at ha
      rcases ha with rfl | ha
      · exact le_rfl
      · have := ih (c + h.size) a ha
        omega
    · simp only [liveAddrs, hm, if_false] at ha
      have := ih (c + h.size) a ha
      omega

theorem liveAddrs_afterRun : ∀ (t : List RawHeader) (b : Nat),
    liveAddrs b t = liveAddrs (b + sumSizes (freeRun t)) (afterRun t) := by
  intro t
  induction t with
  | nil => intro b; simp [liveAddrs, freeRun, afterRun]
  | cons h t ih =>
    intro b
    by_cases hm : h.marked
    · have h0 : sumSizes (freeRun (h :: t)) = 0 := by simp [freeRun, hm, sumSizes]
      rw [show afterRun (h :: t) = h :: t from by simp [afterRun, hm], h0, Nat.add_zero]
    · have hm2 : h.marked = false := by simpa using hm
      simp only [liveAddrs, hm2, Bool.false_eq_true, if_false, freeRun, afterRun]
      rw [ih (b + h.size)]
      congr 1
      simp only [sumSizes]
      omega

theorem memFrom_header (cfg : SweepCfg) :
    ∀ (objs : List RawHeader) (c : Nat) (m : PageMem), allPos objs →
      ∀ x, (memFrom cfg c objs m).header x =
        if x ∈ liveAddrs c objs then
          (m.header x).map (fun h => { h with marked := false })
        else m.header x := by
  intro objs
  induction objs using consumeInduction with
  | base => intro c m _ x; simp [memFrom_nil, liveAddrs]
  | stepM q t hq ih =>
    intro c m hp x
    have hqs : 0 < q.size := hp q (by simp)
    rw [memFrom_cons_marked cfg c t m hq,
      ih (c + q.size) (clearMarkBit m c) (fun o ho => hp o (by simp [ho])) x]
    have hlive : liveAddrs c (q :: t) = c :: liveAddrs (c + q.size) t := by
      simp [liveAddrs, hq]
    rw [hlive]
    by_cases hx : x ∈ liveAddrs (c + q.size) t
    · have hxc : x ≠ c := by have := liveAddrs_ge t (c + q.size) x hx; omega
      rw [if_pos hx, if_pos (by simp [hx]), clearMarkBit_header_ne m c hxc]
    · by_cases hxc : x = c
      · subst hxc
        rw [if_neg hx, if_pos (by simp), clearMarkBit_header_self]
      · rw [if_neg hx, if_neg (by simp [hxc, hx]), clearMarkBit_header_ne m c hxc]
  | stepU q t hq ih =>
    intro c m hp x
    rw [memFrom_cons_unmarked cfg c t m hq]
    have hm1h : (if cfg.isExec then
          fillWords m c cfg.breakFiller ((q.size + sumSizes (freeRun t) + 7) / 8)
        else if cfg.debug then
          fillWords m c cfg.zapWord ((q.size + sumSizes (freeRun t)) / 8)
        else m).header = m.header := by
      by_cases hx : cfg.isExec
      · simp [hx, fillWords_header]
      · by_cases hd : cfg.debug <;> simp [hx, hd, fillWords_header]
    rw [ih (c + (q.size + sumSizes (freeRun t))) _
      (fun o ho => hp o (by simp [mem_afterRun ho])) x]
    have hlive : liveAddrs c (q :: t) =
        liveAddrs (c + (q.size + sumSizes (freeRun t))) (afterRun t) := by
      have h1 : liveAddrs c (q :: t) = liveAddrs (c + q.size) t := by simp [liveAddrs, hq]
      rw [h1, liveAddrs_afterRun t (c + q.size)]
      congr 1
      omega
    rw [hlive, congrFun hm1h x]

theorem fillWords_word_avoid {m : PageMem} {v n a x : Nat}
    (h : ∀ k, k < n → x ≠ a + kWordSize * k) :
    (fillWords m a v n).word x = m.word x := by
  rw [fillWords_word, if_neg]
  rintro ⟨k, hk, rfl⟩
  exact h k hk rfl

theorem fillWords_word_hit {m : PageMem} {v n a k : Nat} (hk : k < n) :
    (fillWords m a v n).word (a + kWordSize * k) = v := by
  rw [fillWords_word, if_pos ⟨k, hk, rfl⟩]

/-- In any build/page-kind configuration, a garbage-run fill leaves the
header map unchanged. -/
theorem runFill_header (cfg : SweepCfg) (m : PageMem) (c len : Nat) :
    (if cfg.isExec then fillWords m c cfg.breakFiller ((len + 7) / 8)
     else if cfg.debug then fillWords m c cfg.zapWord (len / 8)
     else m).header = m.header := by
  by_cases hx : cfg.isExec
  · simp [hx, fillWords_header]
  · by_cases hd : cfg.debug <;> simp [hx, hd, fillWords_header]

theorem runFill_word_avoid (cfg : SweepCfg) (m : PageMem) (c len x : Nat)
    (hx : x < c ∨ c + len ≤ x) :
    (if cfg.isExec then fillWords m c cfg.breakFiller ((len + 7) / 8)
     else if cfg.debug then fillWords m c cfg.zapWord (len / 8)
     else m).word x = m.word x := by
  have havoid1 : ∀ k, k < (len + 7) / 8 → x ≠ c + kWordSize * k := by
    intro k hk
    simp only [kWordSize]
    omega
  have havoid2 : ∀ k, k < len / 8 → x ≠ c + kWordSize * k := by
    intro k hk
    simp only [kWordSize]
    omega
  by_cases hex : cfg.isExec
  · simp only [hex, if_true]
    exact fillWords_word_avoid havoid1
  · by_cases hd : cfg.debug
    · simp only [hex, Bool.false_eq_true, if_false, hd, if_true]
      exact fillWords_word_avoid havoid2
    · simp only [hex, hd, Bool.false_eq_true, if_false]

theorem memFrom_word_lt (cfg : SweepCfg) :
    ∀ (objs : List RawHeader) (c : Nat) (m : PageMem) (x : Nat), x < c →
      (memFrom cfg c objs m).word x = m.word x := by
  intro objs
  induction objs using consumeInduction with
  | base => intro c m x _; rw [memFrom_nil]
  | stepM q t hq ih =>
    intro c m x hx
    rw [memFrom_cons_marked cfg c t m hq, ih (c + q.size) _ x (by omega)]
    rw [clearMarkBit_word]
  | stepU q t hq ih =>
    intro c m x hx
    rw [memFrom_cons_unmarked cfg c t m hq,
      ih (c + (q.size + sumSizes (freeRun t))) _ x (by omega)]
    exact runFill_word_avoid cfg m c (q.size + sumSizes (freeRun t)) x (Or.inl hx)

theorem sumSizes_aligned {l : List RawHeader} (h : ∀ o ∈ l, o.size % 8 = 0) :
    sumSizes l % 8 = 0 := by
  induction l with
  | nil => simp [sumSizes]
  | cons q t ih =>
    have h1 := h q (by simp)
    have h2 := ih (fun o ho => h o (by simp [ho]))
    simp only [sumSizes]
    omega

/-- The general right-boundary form of the run-splitting lemmas: appending
a list that is empty or starts marked does not change the maximal unmarked
run at the head. -/
theorem freeRun_append_headMarked (xs ys : List RawHeader)
    (hy : headMarked ys = true) :
    freeRun (xs ++ ys) = freeRun xs ∧ afterRun (xs ++ ys) = afterRun xs ++ ys := by
  by_cases hx : ∃ x ∈ xs, x.marked = true
  · exact freeRun_append_of_marked_mem ys hx
  · push_neg at hx
    have hall : ∀ x ∈ xs, x.marked = false := by
      intro x hxm
      have := hx x hxm
      simpa using this
    obtain ⟨h1, h2⟩ := freeRun_append_of_unmarked xs ys hall hy
    obtain ⟨h3, h4⟩ := freeRun_of_all_unmarked hall
    rw [h1, h2, h3, h4]
    simp

/-- Frame property of the sweep on words: the word contents of a marked
(live) object are untouched.  `pre` is arbitrary here: no maximality
assumption is needed. -/
theorem memFrom_word_live (cfg : SweepCfg) (o : RawHeader) (ho : o.marked = true) :
    ∀ (pre : List RawHeader), ∀ (post : List RawHeader) (c : Nat) (m : PageMem) (x : Nat),
      allPos (pre ++ o :: post) →
      c + sumSizes pre ≤ x → x < c + sumSizes pre + o.size →
      (memFrom cfg c (pre ++ o :: post) m).word x = m.word x := by
  intro pre
  induction pre using consumeInduction with
  | base =>
    intro post c m x _ hx1 hx2
    simp only [List.nil_append, sumSizes, Nat.add_zero] at hx1 hx2
    rw [List.nil_append,
      memFrom_cons_marked cfg c post m ho, memFrom_word_lt cfg post _ _ x (by omega)]
    rw [clearMarkBit_word]
  | stepM q pre2 hq ih =>
    intro post c m x hp hx1 hx2
    have haddr : c + sumSizes (q :: pre2) = c + q.size + sumSizes pre2 := by
      simp only [sumSizes]; omega
    rw [show (q :: pre2) ++ o :: post = q :: (pre2 ++ o :: post) from rfl,
      memFrom_cons_marked cfg c (pre2 ++ o :: post) _ hq,
      ih post (c + q.size) _ x
        (fun p hp2 => hp p (by simp only [List.cons_append, List.mem_cons]; tauto))
        (by omega) (by omega)]
    rw [clearMarkBit_word]
  | stepU q pre2 hq ih =>
    intro post c m x hp hx1 hx2
    have hqs : 0 < q.size := hp q (by simp)
    obtain ⟨hfr, har⟩ := freeRun_append_headMarked pre2 (o :: post)
      (by simp [headMarked, ho])
    have hsplit := sumSizes_run_split pre2
    have haddr : c + sumSizes (q :: pre2) = c + q.size + sumSizes pre2 := by
      simp only [sumSizes]; omega
    rw [show (q :: pre2) ++ o :: post = q :: (pre2 ++ o :: post) from rfl,
      memFrom_cons_unmarked cfg c (pre2 ++ o :: post) _ hq, hfr, har,
      ih post (c + (q.size + sumSizes (freeRun pre2))) _ x
        (fun p hp2 => hp p (by
          simp only [List.cons_append, List.mem_cons, List.mem_append] at hp2 ⊢
          rcases hp2 with h1 | h1 | h1
          · exact Or.inr (Or.inl (mem_afterRun h1))
          · tauto
          · tauto))
        (by omega) (by omega)]
    exact runFill_word_avoid cfg m c (q.size + sumSizes (freeRun pre2)) x (Or.inr (by omega))

theorem fillWords_word_hit8 {m : PageMem} {v n a k : Nat} (hk : k < n) :
    (fillWords m a v n).word (a + 8 * k) = v := by
  have h := @fillWords_word_hit m v n a k hk
  simpa only [kWordSize] using h

/-- Poison characterization: every word of a maximal garbage run holds the
break filler on executable pages, the zap pattern on other pages in debug
builds, and its original content otherwise. -/
theorem memFrom_word_run (cfg : SweepCfg) :
    ∀ (pre : List RawHeader), ∀ (run post : List RawHeader) (c : Nat) (m : PageMem) (k : Nat),
      allPos (pre ++ run ++ post) →
      endsMarked pre = true →
      run ≠ [] → (∀ o ∈ run, o.marked = false) →
      headMarked post = true →
      sumSizes run % 8 = 0 →
      8 * k < sumSizes run →
      (memFrom cfg c (pre ++ run ++ post) m).word (c + sumSizes pre + 8 * k) =
        if cfg.isExec then cfg.breakFiller
        else if cfg.debug then cfg.zapWord
        else m.word (c + sumSizes pre + 8 * k) := by
  intro pre
  induction pre using consumeInduction with
  | base =>
    intro run post c m k hp _ hrne hrun hpost hal hk
    cases run with
    | nil => exact absurd rfl hrne
    | cons r run2 =>
      have hr : r.marked = false := hrun r (by simp)
      have hrun2 : ∀ o ∈ run2, o.marked = false := fun o ho => hrun o (by simp [ho])
      obtain ⟨hfr, har⟩ := freeRun_append_of_unmarked run2 post hrun2 hpost
      simp only [sumSizes] at hal hk
      simp only [List.nil_append, sumSizes, Nat.add_zero, Nat.zero_add]
      rw [show (r :: run2) ++ post = r :: (run2 ++ post) from rfl,
        memFrom_cons_unmarked cfg c (run2 ++ post) m hr, hfr, har,
        memFrom_word_lt cfg post _ _ _ (by omega)]
      by_cases hex : cfg.isExec
      · simp only [hex, if_true]
        exact fillWords_word_hit8 (by omega)
      · by_cases hd : cfg.debug
        · simp only [hex, Bool.false_eq_true, if_false, hd, if_true]
          exact fillWords_word_hit8 (by omega)
        · simp only [hex, hd, Bool.false_eq_true, if_false]
  | stepM q pre2 hq ih =>
    intro run post c m k hp hpre hrne hrun hpost hal hk
    have hpre2 : endsMarked pre2 = true := by
      by_cases hne : pre2 = []
      · rw [hne]; rfl
      · rwa [endsMarked_cons q hne] at hpre
    have haddr : c + sumSizes (q :: pre2) = c + q.size + sumSizes pre2 := by
      simp only [sumSizes]; omega
    rw [show (q :: pre2) ++ run ++ post = q :: (pre2 ++ run ++ post) from by simp,
      memFrom_cons_marked cfg c (pre2 ++ run ++ post) m hq, haddr,
      show c + q.size + sumSizes pre2 + 8 * k =
        c + q.size + sumSizes pre2 + 8 * k from rfl,
      ih run post (c + q.size) (clearMarkBit m c) k
        (fun p hp2 => hp p (by
          simp only [List.cons_append, List.mem_cons, List.append_assoc,
            List.mem_append] at hp2 ⊢
          tauto))
        hpre2 hrne hrun hpost hal hk,
      clearMarkBit_word]
  | stepU q pre2 hq ih =>
    intro run post c m k hp hpre hrne hrun hpost hal hk
    have hqs : 0 < q.size := hp q (by simp)
    have hne2 : pre2 ≠ [] := by
      rintro rfl
      simp [endsMarked, List.getLast?_singleton, hq] at hpre
    have hpre2 : endsMarked pre2 = true := by rwa [endsMarked_cons q hne2] at hpre
    have hmm : ∃ x ∈ pre2, x.marked = true := marked_mem_of_endsMarked hne2 hpre2
    obtain ⟨hfr, har⟩ := freeRun_append_of_marked_mem (run ++ post) hmm
    have hane : afterRun pre2 ≠ [] := afterRun_ne_nil_of_marked_mem hmm
    have hpreA : endsMarked (afterRun pre2) = true := by
      unfold endsMarked
      rw [afterRun_getLast? hane]
      unfold endsMarked at hpre2
      exact hpre2
    have hsplit := sumSizes_run_split pre2
    have haddr : c + sumSizes (q :: pre2) + 8 * k =
        c + (q.size + sumSizes (freeRun pre2)) + sumSizes (afterRun pre2) + 8 * k := by
      simp only [sumSizes]; omega
    rw [show (q :: pre2) ++ run ++ post = q :: (pre2 ++ (run ++ post)) from by simp,
      memFrom_cons_unmarked cfg c (pre2 ++ (run ++ post)) m hq, hfr,
      show afterRun (pre2 ++ (run ++ post)) = afterRun pre2 ++ run ++ post from by
        rw [har, List.append_assoc], haddr,
      ih run post (c + (q.size + sumSizes (freeRun pre2))) _ k
        (fun p hp2 => hp p (by
          simp only [List.cons_append, List.mem_cons, List.append_assoc,
            List.mem_append] at hp2 ⊢
          rcases hp2 with h1 | h1 | h1
          · exact Or.inr (Or.inl (mem_afterRun h1))
          · tauto
          · tauto))
        hpreA hrne hrun hpost hal hk,
      runFill_word_avoid cfg m c (q.size + sumSizes (freeRun pre2)) _
        (Or.inr (by omega))]

/-! ### The swept page is laid out by the same headers with marks cleared -/

theorem layout_congr_bounded {hdr hdr2 : Nat → Option RawHeader} :
    ∀ (objs : List RawHeader) (c : Nat), allPos objs →
      (∀ x, c ≤ x → x < c + sumSizes objs → hdr2 x = hdr x) →
      layout hdr c objs → layout hdr2 c objs := by
  intro objs
  induction objs with
  | nil => intro c _ _ _; trivial
  | cons h t ih =>
    intro c hp hag hl
    obtain ⟨h1, h2⟩ := hl
    have hpos : 0 < h.size := hp h (by simp)
    refine ⟨?_, ih (c + h.size) (fun o ho => hp o (by simp [ho]))
      (fun x hx1 hx2 => hag x (by omega) (by simp only [sumSizes] at hx2 ⊢; omega)) h2⟩
    rw [hag c le_rfl (by simp only [sumSizes]; omega)]
    exact h1

theorem map_clear_of_unmarked {l : List RawHeader} (h : ∀ o ∈ l, o.marked = false) :
    l.map (fun o => RawHeader.mk false o.size) = l := by
  induction l with
  | nil => rfl
  | cons q t ih =>
    have hq : q.marked = false := h q (by simp)
    have ht := ih (fun o ho => h o (by simp [ho]))
    rcases q with ⟨qm, qs⟩
    simp only at hq
    subst hq
    simp [ht]

/-- After the sweep, the page is laid out by the same headers with every
mark bit cleared: no object in the page reports itself marked. -/
theorem memFrom_layout_cleared (cfg : SweepCfg) :
    ∀ (objs : List RawHeader) (c : Nat) (m : PageMem),
      layout m.header c objs → allPos objs →
      layout (memFrom cfg c objs m).header c
        (objs.map (fun o => RawHeader.mk false o.size)) := by
  intro objs
  induction objs using consumeInduction with
  | base => intro c m _ _; rw [memFrom_nil]; trivial
  | stepM q t hq ih =>
    intro c m hl hp
    obtain ⟨h1, h2⟩ := hl
    have hqs : 0 < q.size := hp q (by simp)
    have hpt : allPos t := fun o ho => hp o (by simp [ho])
    rw [memFrom_cons_marked cfg c t m hq]
    have hl2 : layout (clearMarkBit m c).header (c + q.size) t :=
      layout_congr t (c + q.size) (fun x hx => clearMarkBit_header_ne m c (by omega)) h2
    refine ⟨?_, ih (c + q.size) (clearMarkBit m c) hl2 hpt⟩
    rw [memFrom_header cfg t (c + q.size) _ hpt c,
      if_neg (fun hmem => by have := liveAddrs_ge t (c + q.size) c hmem; omega),
      clearMarkBit_header_self, h1]
    rfl
  | stepU q t hq ih =>
    intro c m hl hp
    obtain ⟨h1, h2⟩ := hl
    have hqs : 0 < q.size := hp q (by simp)
    have hpt : allPos t := fun o ho => hp o (by simp [ho])
    rw [memFrom_cons_unmarked cfg c t m hq]
    set fe := c + (q.size + sumSizes (freeRun t)) with hfe
    set m1 := (if cfg.isExec then
        fillWords m c cfg.breakFiller ((q.size + sumSizes (freeRun t) + 7) / 8)
      else if cfg.debug then
        fillWords m c cfg.zapWord ((q.size + sumSizes (freeRun t)) / 8)
      else m) with hm1
    have hm1h : m1.header = m.header := runFill_header cfg m c _
    have hsplit : layout m.header (c + q.size) (freeRun t ++ afterRun t) := by
      rw [freeRun_append_afterRun]; exact h2
    obtain ⟨hlf, hla⟩ := (layout_append (freeRun t) (afterRun t) (c + q.size)).mp hsplit
    have hlaft : layout m1.header fe (afterRun t) := by
      rw [hm1h, hfe]
      have : c + (q.size + sumSizes (freeRun t)) = c + q.size + sumSizes (freeRun t) := by
        omega
      rw [this]
      exact hla
    have hrec := ih fe m1 hlaft (fun o ho => hpt o (mem_afterRun ho))
    have hmap : (q :: t).map (fun o => RawHeader.mk false o.size) =
        (q :: freeRun t) ++ (afterRun t).map (fun o => RawHeader.mk false o.size) := by
      conv => lhs; rw [show q :: t = (q :: freeRun t) ++ afterRun t from by
        rw [List.cons_append, freeRun_append_afterRun]]
      rw [List.map_append, @map_clear_of_unmarked (q :: freeRun t) (by
        intro o ho
        rcases List.mem_cons.mp ho with rfl | ho2
        · exact hq
        · exact freeRun_unmarked o ho2)]
    rw [hmap, layout_append]
    have hsum : c + sumSizes (q :: freeRun t) = fe := by
      rw [hfe]
      simp only [sumSizes]
      try omega
    constructor
    · have hlqf : layout m.header c (q :: freeRun t) := ⟨h1, hlf⟩
      refine layout_congr_bounded (q :: freeRun t) c (by
        intro o ho
        rcases List.mem_cons.mp ho with rfl | ho2
        · exact hqs
        · exact hpt o (mem_freeRun ho2)) ?_ hlqf
      intro x hx1 hx2
      rw [hsum] at hx2
      rw [memFrom_header cfg (afterRun t) fe m1 (fun o ho => hpt o (mem_afterRun ho)) x,
        if_neg (fun hmem => by have := liveAddrs_ge (afterRun t) fe x hmem; omega),
        hm1h]
    · rw [hsum]
      exact hrec

/-! ### Properties of the read trace -/

theorem countReads_append (a b : List Ev) (x : Nat) :
    countReads (a ++ b) x = countReads a x + countReads b x := by
  simp [countReads, List.filter_append]

theorem countReads_cons (ev : Ev) (tr : List Ev) (x : Nat) :
    countReads (ev :: tr) x = (if ev.addr = x then 1 else 0) + countReads tr x := by
  by_cases hx : ev.addr = x
  all_goals simp [countReads, List.filter_cons, hx]
  all_goals omega

theorem countReads_eq_zero {tr : List Ev} {x : Nat}
    (h : ∀ ev ∈ tr, ev.addr ≠ x) : countReads tr x = 0 := by
  induction tr with
  | nil => rfl
  | cons ev tr ih =>
    rw [countReads_cons, if_neg (h ev (by simp)), ih (fun e he => h e (by simp [he]))]

theorem runReads_addr : ∀ (t : List RawHeader) (b : Nat), ∀ ev ∈ runReads b t,
    b ≤ ev.addr ∧ ev.addr ≤ b + sumSizes (freeRun t) := by
  intro t
  induction t with
  | nil => intro b ev hev; simp [runReads] at hev
  | cons h t ih =>
    intro b ev hev
    by_cases hm : h.marked
    · simp only [runReads, hm, if_true, List.mem_singleton] at hev
      subst hev
      simp [Ev.addr, freeRun, hm]
    · have hm2 : h.marked = false := by simpa using hm
      simp only [runReads, hm2, Bool.false_eq_true, if_false, List.mem_cons] at hev
      rcases hev with rfl | hev
      · simp [Ev.addr]
      · have := ih (b + h.size) ev hev
        simp only [freeRun, hm2, Bool.false_eq_true, if_false, sumSizes]
        omega

theorem trFrom_addr_ge : ∀ (objs : List RawHeader) (c : Nat), ∀ ev ∈ trFrom c objs,
    c ≤ ev.addr := by
  intro objs
  induction objs using consumeInduction with
  | base => intro c ev hev; rw [trFrom_nil] at hev; simp at hev
  | stepM q t hq ih =>
    intro c ev hev
    rw [trFrom_cons_marked c t hq] at hev
    rcases List.mem_cons.mp hev with rfl | hev
    · simp [Ev.addr]
    · have := ih (c + q.size) ev hev
      omega
  | stepU q t hq ih =>
    intro c ev hev
    rw [trFrom_cons_unmarked c t hq] at hev
    rcases List.mem_cons.mp hev with rfl | hev
    · simp [Ev.addr]
    · rcases List.mem_append.mp hev with hev | hev
      · have := (runReads_addr t (c + q.size) ev hev).1
        omega
      · have := ih (c + (q.size + sumSizes (freeRun t))) ev hev
        omega

theorem endsUnmarked_of_all_unmarked {l : List RawHeader} (hne : l ≠ [])
    (hall : ∀ x ∈ l, x.marked = false) : endsUnmarked l = true := by
  unfold endsUnmarked
  obtain ⟨q, hq⟩ := Option.isSome_iff_exists.mp (List.getLast?_isSome.mpr hne)
  rw [hq]
  simp [hall q (mem_of_getLast?_eq hq)]

/-- The run-extension loop reads the mark bit of the marked object closing
the run exactly once. -/
theorem countReads_runReads {o : RawHeader} (ho : o.marked = true) :
    ∀ (xs ys : List RawHeader) (b : Nat),
      (∀ x ∈ xs, x.marked = false) → allPos xs →
      countReads (runReads b (xs ++ o :: ys)) (b + sumSizes xs) = 1 := by
  intro xs
  induction xs with
  | nil =>
    intro ys b _ _
    simp only [List.nil_append, runReads, ho, if_true, sumSizes, Nat.add_zero]
    simp [countReads, Ev.addr]
  | cons x xs ih =>
    intro ys b hall hp
    have hx : x.marked = false := hall x (by simp)
    have hxs : 0 < x.size := hp x (by simp)
    have hsums : 0 < sumSizes (x :: xs) := sumSizes_pos hp (by simp)
    simp only [List.cons_append, runReads, hx, Bool.false_eq_true, if_false,
      List.append_eq]
    rw [countReads_cons, if_neg (by simp only [Ev.addr]; omega)]
    rw [show b + sumSizes (x :: xs) = b + x.size + sumSizes xs from by
      simp only [sumSizes]; omega]
    rw [ih ys (b + x.size) (fun y hy => hall y (by simp [hy]))
      (fun y hy => hp y (by simp [hy]))]

/-- How often the scan reads the mark bit of a live object: twice when the
object closes a garbage run immediately before it (once by the
run-extension loop, once by the main loop), once otherwise. -/
theorem countReads_trFrom {o : RawHeader} (ho : o.marked = true) :
    ∀ (pre : List RawHeader), ∀ (post : List RawHeader) (c : Nat),
      allPos (pre ++ o :: post) →
      countReads (trFrom c (pre ++ o :: post)) (c + sumSizes pre) =
        if endsUnmarked pre = true then 2 else 1 := by
  intro pre
  induction pre using consumeInduction with
  | base =>
    intro post c hp
    have hos : 0 < o.size := hp o (by simp)
    simp only [List.nil_append, sumSizes, Nat.add_zero]
    rw [trFrom_cons_marked c post ho, countReads_cons,
      if_pos (show (Ev.readMark c true).addr = c from rfl)]
    rw [countReads_eq_zero (fun ev hev => by
      have := trFrom_addr_ge post (c + o.size) ev hev
      omega)]
    simp [endsUnmarked]
  | stepM q pre2 hq ih =>
    intro post c hp
    have hqs : 0 < q.size := hp q (by simp)
    have haddr : c + sumSizes (q :: pre2) = c + q.size + sumSizes pre2 := by
      simp only [sumSizes]; omega
    rw [show (q :: pre2) ++ o :: post = q :: (pre2 ++ o :: post) from rfl,
      trFrom_cons_marked c (pre2 ++ o :: post) hq, countReads_cons,
      if_neg (by simp only [Ev.addr]; omega), haddr,
      ih post (c + q.size) (fun p hp2 => hp p (by
        simp only [List.cons_append, List.mem_cons] at hp2 ⊢; tauto))]
    have hends : endsUnmarked (q :: pre2) = endsUnmarked pre2 := by
      by_cases hne : pre2 = []
      · subst hne
        simp [endsUnmarked, List.getLast?_singleton, hq]
      · exact endsUnmarked_cons q hne
    rw [hends, Nat.zero_add]
  | stepU q pre2 hq ih =>
    intro post c hp
    have hqs : 0 < q.size := hp q (by simp)
    obtain ⟨hfr, har⟩ := freeRun_append_headMarked pre2 (o :: post)
      (by simp [headMarked, ho])
    have haddr : c + sumSizes (q :: pre2) = c + q.size + sumSizes pre2 := by
      simp only [sumSizes]; omega
    have hsplit := sumSizes_run_split pre2
    rw [show (q :: pre2) ++ o :: post = q :: (pre2 ++ o :: post) from rfl,
      trFrom_cons_unmarked c (pre2 ++ o :: post) hq, countReads_append,
      countReads_cons, if_neg (by simp only [Ev.addr]; omega), hfr, har]
    by_cases hmm2 : ∃ x ∈ pre2, x.marked = true
    · -- the run before `o` ends inside pre2
      have hane : afterRun pre2 ≠ [] := afterRun_ne_nil_of_marked_mem hmm2
      have hpA : allPos (afterRun pre2) := fun p hp2 => hp p (by
        simp only [List.cons_append, List.mem_cons, List.mem_append]
        exact Or.inr (Or.inl (mem_afterRun hp2)))
      have hsumA : 0 < sumSizes (afterRun pre2) := sumSizes_pos hpA hane
      have hrr0 : countReads (runReads (c + q.size) (pre2 ++ o :: post))
          (c + sumSizes (q :: pre2)) = 0 := by
        apply countReads_eq_zero
        intro ev hev
        have hub := (runReads_addr (pre2 ++ o :: post) (c + q.size) ev hev).2
        rw [hfr] at hub
        omega
      have hrec := ih post (c + (q.size + sumSizes (freeRun pre2)))
        (fun p hp2 => hp p (by
          simp only [List.cons_append, List.mem_cons, List.mem_append] at hp2 ⊢
          rcases hp2 with h1 | h1 | h1
          · exact Or.inr (Or.inl (mem_afterRun h1))
          · tauto
          · tauto))
      rw [show c + (q.size + sumSizes (freeRun pre2)) + sumSizes (afterRun pre2) =
          c + sumSizes (q :: pre2) from by simp only [sumSizes]; omega] at hrec
      rw [hrr0, hrec]
      have hne2 : pre2 ≠ [] := by rintro rfl; simp at hmm2
      have hends : endsUnmarked (q :: pre2) = endsUnmarked (afterRun pre2) := by
        rw [endsUnmarked_cons q hne2]
        unfold endsUnmarked
        rw [afterRun_getLast? hane]
      rw [hends]
      simp
    · -- pre2 is entirely unmarked: the run reaches `o`
      push_neg at hmm2
      have hallu : ∀ x ∈ pre2, x.marked = false := by
        intro x hx
        have := hmm2 x hx
        simpa using this
      obtain ⟨hfr2, har2⟩ := freeRun_of_all_unmarked hallu
      have hpu : allPos pre2 := fun p hp2 => hp p (by
        simp only [List.cons_append, List.mem_cons, List.mem_append]; tauto)
      have hrr1 : countReads (runReads (c + q.size) (pre2 ++ o :: post))
          (c + sumSizes (q :: pre2)) = 1 := by
        rw [show c + sumSizes (q :: pre2) = c + q.size + sumSizes pre2 from haddr]
        exact countReads_runReads ho pre2 post (c + q.size) hallu hpu
      rw [har2] at ih
      simp only [List.nil_append, sumSizes, Nat.add_zero] at ih
      have htr1 : countReads (trFrom (c + (q.size + sumSizes (freeRun pre2)))
          (afterRun pre2 ++ o :: post)) (c + sumSizes (q :: pre2)) =
          if endsUnmarked ([] : List RawHeader) = true then 2 else 1 := by
        rw [har2, List.nil_append, hfr2,
          show c + sumSizes (q :: pre2) = c + (q.size + sumSizes pre2) from by
            simp only [sumSizes]]
        exact ih post (c + (q.size + sumSizes pre2)) (fun p hp2 => hp p (by
          simp only [List.cons_append, List.mem_cons, List.mem_append] at hp2 ⊢
          tauto))
      rw [hrr1, htr1]
      have hends : endsUnmarked (q :: pre2) = true := by
        apply endsUnmarked_of_all_unmarked (by simp)
        intro x hx
        rcases List.mem_cons.mp hx with rfl | hx2
        · exact hq
        · exact hallu x hx2
      rw [hends]
      simp [endsUnmarked]

/-! ### The large-object page sweep -/

theorem fillerWalk_spec (zap e : Nat) :
    ∀ (fl : List RawHeader) (c : Nat) (m : PageMem) (fuel : Nat),
      layout m.header c fl → allPos fl → (∀ o ∈ fl, o.marked = false) →
      c + sumSizes fl = e → fl.length < fuel →
      ∃ m2, fillerWalk zap e fuel c m = some m2 ∧ m2.header = m.header := by
  intro fl
  induction fl with
  | nil =>
    intro c m fuel _ _ _ he hf
    cases fuel with
    | zero => exact absurd hf (by omega)
    | succ fuel =>
      have hnlt : ¬ c < e := by simp only [sumSizes] at he; omega
      exact ⟨m, by simp [fillerWalk, hnlt], rfl⟩
  | cons h t ih =>
    intro c m fuel hl hp hu he hf
    obtain ⟨h1, h2⟩ := hl
    have hpos : 0 < h.size := hp h (by simp)
    have hm : h.marked = false := hu h (by simp)
    have hlt : c < e := by simp only [sumSizes] at he; omega
    cases fuel with
    | zero => exact absurd hf (by omega)
    | succ fuel =>
      obtain ⟨m2, hm2, hm2h⟩ := ih (c + h.size) (fillWords m c zap (h.size / 8)) fuel
        (by rw [fillWords_header]; exact h2)
        (fun o ho => hp o (by simp [ho])) (fun o ho => hu o (by simp [ho]))
        (by simp only [sumSizes] at he; omega)
        (by simp only [List.length_cons] at hf; omega)
      refine ⟨m2, ?_, by rw [hm2h, fillWords_header]⟩
      simp only [fillerWalk, if_pos hlt, h1, hm, Bool.false_eq_true, if_false]
      exact hm2

/-- `SweepLargePage` reads only the primary header for its return value:
0 when unmarked; the size in words with the mark cleared when marked —
independent of the trailing fillers, which are required unmarked. -/
theorem SweepLargePage_spec (debug : Bool) (zap : Nat) (s e : Nat) (m : PageMem)
    (h : RawHeader) (fillers : List RawHeader)
    (hh : m.header s = some h) (hpos : 0 < h.size)
    (hlf : layout m.header (s + h.size) fillers) (hpf : allPos fillers)
    (hunm : ∀ o ∈ fillers, o.marked = false)
    (hef : s + h.size + sumSizes fillers = e) :
    ∃ m2, SweepLargePage debug zap s e m =
        some (if h.marked then h.size >>> kWordSizeLog2 else 0, m2) ∧
      m2.header s = some (RawHeader.mk false h.size) := by
  have hclear : ∀ m1 : PageMem, m1.header = (if h.marked then clearMarkBit m s else m).header →
      m1.header s = some (RawHeader.mk false h.size) := by
    intro m1 hm1
    rw [hm1]
    by_cases hmk : h.marked
    · rw [if_pos hmk, clearMarkBit_header_self, hh]
      rfl
    · rw [if_neg hmk, hh]
      rcases h with ⟨hm2, hs2⟩
      simp only at hmk
      simp only [Bool.not_eq_true] at hmk
      subst hmk
      rfl
  have hl1 : layout (if h.marked then clearMarkBit m s else m).header (s + h.size) fillers := by
    by_cases hmk : h.marked
    · rw [if_pos hmk]
      exact layout_congr fillers (s + h.size)
        (fun x hx => clearMarkBit_header_ne m s (by omega)) hlf
    · rw [if_neg hmk]
      exact hlf
  unfold SweepLargePage
  rw [hh]
  by_cases hd : debug
  · obtain ⟨m2, hw, hwh⟩ := fillerWalk_spec zap e fillers (s + h.size)
      (if h.marked then clearMarkBit m s else m) (e - (s + h.size) + 1) hl1 hpf hunm hef
      (by have := length_le_sumSizes hpf; omega)
    simp only [hd, if_true, hw]
    exact ⟨m2, rfl, hclear m2 hwh⟩
  · simp only [hd, Bool.false_eq_true, if_false]
    exact ⟨_, rfl, hclear _ rfl⟩

/-! ### The concurrent sweeper task: trace shape and shared-state protocol -/

theorem runLargePages_evs (d : Bool) (z : Nat) :
    ∀ (ps : List PageDesc) (evs : List TaskEv), runLargePages d z ps = some evs →
      ∀ ev ∈ evs, ∃ w, ev = TaskEv.sweptLarge w := by
  intro ps
  induction ps with
  | nil =>
    intro evs h ev hev
    simp only [runLargePages, Option.some.injEq] at h
    subst h
    simp at hev
  | cons p ps ih =>
    intro evs h ev hev
    simp only [runLargePages] at h
    cases hsl : SweepLargePage d z p.objStart p.objEnd p.mem with
    | none => rw [hsl] at h; simp at h
    | some r =>
      rw [hsl] at h
      cases hrl : runLargePages d z ps with
      | none => rw [hrl] at h; simp at h
      | some evs2 =>
        rw [hrl] at h
        simp only [Option.some.injEq] at h
        subst h
        rcases List.mem_cons.mp hev with rfl | hev2
        · exact ⟨r.1, rfl⟩
        · exact ih evs2 hrl ev hev2

theorem runOrdPages_shape (d : Bool) (z bf : Nat) :
    ∀ (ps : List PageDesc) (evs : List TaskEv), runOrdPages d z bf ps = some evs →
      (∀ tail, notifiedAfterEachOrdPage (evs ++ tail) = notifiedAfterEachOrdPage tail) ∧
      evs.count TaskEv.notify = ps.length ∧
      TaskEv.completed ∉ evs := by
  intro ps
  induction ps with
  | nil =>
    intro evs h
    simp only [runOrdPages, Option.some.injEq] at h
    subst h
    exact ⟨fun tail => rfl, rfl, by simp⟩
  | cons p ps ih =>
    intro evs h
    simp only [runOrdPages] at h
    cases hsp : SweepPage (ordCfg d z bf) p.objStart p.objEnd p.mem with
    | none => rw [hsp] at h; simp at h
    | some r =>
      rw [hsp] at h
      cases hro : runOrdPages d z bf ps with
      | none => rw [hro] at h; simp at h
      | some evs2 =>
        rw [hro] at h
        simp only [Option.some.injEq] at h
        subst h
        obtain ⟨i1, i2, i3⟩ := ih evs2 hro
        refine ⟨?_, ?_, ?_⟩
        · intro tail
          simp only [List.cons_append, notifiedAfterEachOrdPage]
          exact i1 tail
        · simp only [List.count_cons, i2]
          simp [List.length_cons]
        · intro hcon
          rcases List.mem_cons.mp hcon with h1 | h1
          · exact absurd h1 (by simp)
          · rcases List.mem_cons.mp h1 with h2 | h2
            · exact absurd h2 (by simp)
            · exact i3 h2

theorem notifiedAfterEachOrdPage_large {l : List TaskEv}
    (hl : ∀ ev ∈ l, ∃ w, ev = TaskEv.sweptLarge w) :
    ∀ tail, notifiedAfterEachOrdPage (l ++ tail) = notifiedAfterEachOrdPage tail := by
  induction l with
  | nil => intro tail; rfl
  | cons ev l ih =>
    intro tail
    obtain ⟨w, rfl⟩ := hl ev (by simp)
    simp only [List.cons_append, notifiedAfterEachOrdPage]
    exact ih (fun e he => hl e (by simp [he])) tail

theorem count_notify_large {l : List TaskEv}
    (hl : ∀ ev ∈ l, ∃ w, ev = TaskEv.sweptLarge w) :
    l.count TaskEv.notify = 0 := by
  rw [List.count_eq_zero]
  intro hcon
  obtain ⟨w, hw⟩ := hl TaskEv.notify hcon
  simp at hw

theorem taskTrace_decomp {d : Bool} {z bf : Nat} {ls os : List PageDesc}
    {evs : List TaskEv} (hT : taskTrace d z bf ls os = some evs) :
    ∃ l o, runLargePages d z ls = some l ∧ runOrdPages d z bf os = some o ∧
      evs = l ++ o ++ [TaskEv.completed] := by
  unfold taskTrace at hT
  by_cases he : os.isEmpty
  · rw [if_pos he] at hT; simp at hT
  · rw [if_neg he] at hT
    cases hl : runLargePages d z ls with
    | none => rw [hl] at hT; simp at hT
    | some l =>
      cases ho : runOrdPages d z bf os with
      | none => rw [hl, ho] at hT; simp at hT
      | some o =>
        rw [hl, ho] at hT
        simp only [Option.some.injEq] at hT
        exact ⟨l, o, rfl, rfl, hT.symm⟩

theorem statesFrom_no_completed (st : SpaceState) :
    ∀ (evs : List TaskEv), TaskEv.completed ∉ evs →
      statesFrom st evs = some (List.replicate evs.length st) := by
  intro evs
  induction evs with
  | nil => intro _; rfl
  | cons ev evs ih =>
    intro h
    have hev : taskEvStep st ev = some st := by
      cases ev with
      | completed => exact absurd (by simp) h
      | sweptLarge w => rfl
      | sweptPage b => rfl
      | notify => rfl
    simp only [statesFrom, hev, ih (fun hc => h (by simp [hc])), Option.map_some,
      List.length_cons, List.replicate_succ]
    rfl

theorem statesFrom_final (st : SpaceState) (hph : st.phase = SpacePhase.kSweeping) :
    ∀ (evs : List TaskEv), TaskEv.completed ∉ evs →
      statesFrom st (evs ++ [TaskEv.completed]) =
        some (List.replicate evs.length st ++
          [{ tasks := st.tasks - 1, phase := SpacePhase.kDone }]) := by
  intro evs
  induction evs with
  | nil =>
    intro _
    simp only [List.nil_append, statesFrom, taskEvStep, hph, if_pos, List.replicate]
    rfl
  | cons ev evs ih =>
    intro h
    have hev : taskEvStep st ev = some st := by
      cases ev with
      | completed => exact absurd (by simp) h
      | sweptLarge w => rfl
      | sweptPage b => rfl
      | notify => rfl
    simp only [List.cons_append, statesFrom, hev, List.append_eq,
      ih (fun hc => h (by simp [hc])),
      Option.map_some, List.length_cons, List.replicate_succ, List.cons_append]
    rfl

/-! ### The claims -/

/-- C1: on an ordinary page whose object area `[s, e)` is exactly tiled by
headers (each of positive size, per the object-header contract),
`SweepPage` sets the page's `usedBytes` to the sum of the sizes of the
marked objects, the scan position lands exactly on `e`, and the returned
in-use flag equals `usedBytes != 0`. -/
theorem SweepPage_usedBytes_end_inUse (cfg : SweepCfg) (s e : Nat) (m : PageMem)
    (objs : List RawHeader) (hl : layout m.header s objs) (hp : allPos objs)
    (he : s + sumSizes objs = e) :
    ∃ r, SweepPage cfg s e m = some r ∧
      r.used = markedSize objs ∧ r.finalPos = e ∧ r.inUse = (r.used != 0) :=
  ⟨_, SweepPage_spec cfg s e m objs hl hp he, rfl, rfl, rfl⟩

theorem SweepPage_usedBytes_end_inUse_witness :
    layout (mkMem [⟨true, 16⟩, ⟨false, 16⟩, ⟨true, 16⟩]).header 0
        [⟨true, 16⟩, ⟨false, 16⟩, ⟨true, 16⟩] ∧
    ∃ r, SweepPage ⟨false, false, false, 0, 0⟩ 0 48
        (mkMem [⟨true, 16⟩, ⟨false, 16⟩, ⟨true, 16⟩]) = some r ∧
      r.used = markedSize [⟨true, 16⟩, ⟨false, 16⟩, ⟨true, 16⟩] ∧
      r.finalPos = 48 ∧ r.inUse = (r.used != 0) :=
  ⟨by decide, SweepPage_usedBytes_end_inUse ⟨false, false, false, 0, 0⟩ 0 48
    (mkMem [⟨true, 16⟩, ⟨false, 16⟩, ⟨true, 16⟩])
    [⟨true, 16⟩, ⟨false, 16⟩, ⟨true, 16⟩] (by decide) (by decide) (by decide)⟩

/-- C10: on a page whose headers all report a strictly positive,
word-aligned heap size and exactly tile the object area, the scan loop of
`SweepPage` terminates (the fueled loop completes within its fuel) and
lands exactly on the area's end. -/
theorem SweepPage_terminates (cfg : SweepCfg) (s e : Nat) (m : PageMem)
    (objs : List RawHeader) (hl : layout m.header s objs) (hp : allPos objs)
    (hal : ∀ o ∈ objs, o.size % 8 = 0) (he : s + sumSizes objs = e) :
    ∃ r, SweepPage cfg s e m = some r ∧ r.finalPos = e :=
  ⟨_, SweepPage_spec cfg s e m objs hl hp he, rfl⟩

theorem SweepPage_terminates_witness :
    (∀ o ∈ [RawHeader.mk true 8, RawHeader.mk false 24], o.size % 8 = 0) ∧
    ∃ r, SweepPage ⟨false, false, false, 0, 0⟩ 0 32
        (mkMem [⟨true, 8⟩, ⟨false, 24⟩]) = some r ∧ r.finalPos = 32 :=
  ⟨by decide, SweepPage_terminates ⟨false, false, false, 0, 0⟩ 0 32
    (mkMem [⟨true, 8⟩, ⟨false, 24⟩]) [⟨true, 8⟩, ⟨false, 24⟩]
    (by decide) (by decide) (by decide) (by decide)⟩

/-- C6: after `SweepPage`, the page is laid out by the same headers with
every mark bit cleared — marked objects had their mark cleared, unmarked
objects stayed unmarked, and no object reports itself marked. -/
theorem SweepPage_no_marks_remain (cfg : SweepCfg) (s e : Nat) (m : PageMem)
    (objs : List RawHeader) (hl : layout m.header s objs) (hp : allPos objs)
    (he : s + sumSizes objs = e) :
    ∃ r, SweepPage cfg s e m = some r ∧
      layout r.mem.header s (objs.map (fun o => RawHeader.mk false o.size)) :=
  ⟨_, SweepPage_spec cfg s e m objs hl hp he,
    memFrom_layout_cleared cfg objs s m hl hp⟩

theorem SweepPage_no_marks_remain_witness :
    layout (mkMem [⟨true, 8⟩, ⟨false, 8⟩, ⟨true, 16⟩]).header 0
        [⟨true, 8⟩, ⟨false, 8⟩, ⟨true, 16⟩] ∧
    ∃ r, SweepPage ⟨false, true, true, 0, 205⟩ 0 32
        (mkMem [⟨true, 8⟩, ⟨false, 8⟩, ⟨true, 16⟩]) = some r ∧
      layout r.mem.header 0
        (([⟨true, 8⟩, ⟨false, 8⟩, ⟨true, 16⟩] : List RawHeader).map
          (fun o => RawHeader.mk false o.size)) :=
  ⟨by decide, SweepPage_no_marks_remain ⟨false, true, true, 0, 205⟩ 0 32
    (mkMem [⟨true, 8⟩, ⟨false, 8⟩, ⟨true, 16⟩]) [⟨true, 8⟩, ⟨false, 8⟩, ⟨true, 16⟩]
    (by decide) (by decide) (by decide)⟩

/-- The run spanning `[s + sumSizes pre, s + sumSizes pre + sumSizes run)`
does not cover the whole object area when `pre` and `post` are not both
empty. -/
theorem run_not_whole_page {s e : Nat} {pre run post : List RawHeader}
    (hp : allPos (pre ++ run ++ post))
    (he : s + sumSizes (pre ++ run ++ post) = e)
    (hnw : ¬(pre = [] ∧ post = [])) :
    ¬(s + sumSizes pre = s ∧ s + sumSizes pre + sumSizes run = e) := by
  rintro ⟨hc1, hc2⟩
  rw [sumSizes_append, sumSizes_append] at he
  by_cases hpe : pre = []
  · have hpo : post ≠ [] := fun hpo => hnw ⟨hpe, hpo⟩
    have : 0 < sumSizes post := sumSizes_pos
      (fun o ho => hp o (by simp [ho])) hpo
    omega
  · have : 0 < sumSizes pre := sumSizes_pos
      (fun o ho => hp o (by simp [ho])) hpe
    omega

/-- C2: every maximal run of adjacent unmarked objects is handed to the
free-list sink as one contiguous range starting at the run's first object
with length the sum of the run's sizes (when it does not cover the whole
area — then nothing is handed); exactly one entry carries the run's
address and no entry starts strictly inside the run. -/
theorem SweepPage_coalesces_runs (cfg : SweepCfg) (s e : Nat) (m : PageMem)
    (pre run post : List RawHeader)
    (hl : layout m.header s (pre ++ run ++ post))
    (hp : allPos (pre ++ run ++ post))
    (he : s + sumSizes (pre ++ run ++ post) = e)
    (hpre : endsMarked pre = true)
    (hrne : run ≠ []) (hrun : ∀ o ∈ run, o.marked = false)
    (hpost : headMarked post = true)
    (hnw : ¬(pre = [] ∧ post = [])) :
    ∃ r, SweepPage cfg s e m = some r ∧
      (s + sumSizes pre, sumSizes run, cfg.locked) ∈ r.inserts ∧
      List.countP (fun p => p.1 == s + sumSizes pre) r.inserts = 1 ∧
      (∀ p ∈ r.inserts,
        ¬(s + sumSizes pre < p.1 ∧ p.1 < s + sumSizes pre + sumSizes run)) := by
  obtain ⟨i1, i2, i3⟩ := insFrom_run_spec s e cfg.locked pre run post s hp hpre hrne hrun hpost
  have hcond := run_not_whole_page hp he hnw
  refine ⟨_, SweepPage_spec cfg s e m (pre ++ run ++ post) hl hp he,
    i1.mpr hcond, ?_, i3⟩
  rw [i2, if_neg hcond]

theorem SweepPage_coalesces_runs_witness :
    endsMarked [RawHeader.mk true 16] = true ∧
    ∃ r, SweepPage ⟨false, false, true, 0, 0⟩ 0 64
        (mkMem [⟨true, 16⟩, ⟨false, 8⟩, ⟨false, 8⟩, ⟨false, 16⟩, ⟨true, 16⟩]) = some r ∧
      (0 + sumSizes [RawHeader.mk true 16],
        sumSizes [RawHeader.mk false 8, RawHeader.mk false 8, RawHeader.mk false 16],
        true) ∈ r.inserts ∧
      List.countP (fun p => p.1 == 0 + sumSizes [RawHeader.mk true 16]) r.inserts = 1 ∧
      (∀ p ∈ r.inserts,
        ¬(0 + sumSizes [RawHeader.mk true 16] < p.1 ∧
          p.1 < 0 + sumSizes [RawHeader.mk true 16] +
            sumSizes [RawHeader.mk false 8, RawHeader.mk false 8, RawHeader.mk false 16])) :=
  ⟨by decide, SweepPage_coalesces_runs ⟨false, false, true, 0, 0⟩ 0 64
    (mkMem [⟨true, 16⟩, ⟨false, 8⟩, ⟨false, 8⟩, ⟨false, 16⟩, ⟨true, 16⟩])
    [⟨true, 16⟩] [⟨false, 8⟩, ⟨false, 8⟩, ⟨false, 16⟩] [⟨true, 16⟩]
    (by decide) (by decide) (by decide) (by decide) (by decide) (by decide)
    (by decide) (by decide)⟩

/-- C3: a garbage run is inserted into the free list iff it does not span
the whole object area; a page that is entirely one garbage run gets no
free-list entry, `usedBytes = 0`, and `SweepPage` returns `false` so the
caller can retire the page. -/
theorem SweepPage_whole_page_garbage (cfg : SweepCfg) (s e : Nat) (m : PageMem)
    (objs : List RawHeader) (hl : layout m.header s objs) (hp : allPos objs)
    (he : s + sumSizes objs = e) (hne : objs ≠ []) :
    ∃ r, SweepPage cfg s e m = some r ∧
      ((∀ o ∈ objs, o.marked = false) →
        r.inserts = [] ∧ r.used = 0 ∧ r.inUse = false) ∧
      (∀ pre run post, objs = pre ++ run ++ post → endsMarked pre = true →
        run ≠ [] → (∀ o ∈ run, o.marked = false) → headMarked post = true →
        ¬(pre = [] ∧ post = []) →
        (s + sumSizes pre, sumSizes run, cfg.locked) ∈ r.inserts) ∧
      (∀ p ∈ r.inserts, ¬(p.1 = s ∧ p.1 + p.2.1 = e)) := by
  refine ⟨_, SweepPage_spec cfg s e m objs hl hp he, ?_, ?_, ?_⟩
  · intro hall
    refine ⟨insFrom_eq_nil_of_all_unmarked s e cfg.locked objs hne hall he, ?_, ?_⟩
    · exact markedSize_eq_zero hall
    · simp only [markedSize_eq_zero hall]
      rfl
  · intro pre run post hobjs hpre hrne hrun hpost hnw
    subst hobjs
    obtain ⟨i1, _, _⟩ := insFrom_run_spec s e cfg.locked pre run post s hp hpre hrne
      hrun hpost
    exact i1.mpr (run_not_whole_page hp he hnw)
  · intro p hmem
    exact (insFrom_bounds s e cfg.locked objs s hp p hmem).1

theorem SweepPage_whole_page_garbage_witness :
    ([RawHeader.mk false 32] : List RawHeader) ≠ [] ∧
    ∃ r, SweepPage ⟨false, false, false, 0, 0⟩ 0 32 (mkMem [⟨false, 32⟩]) = some r ∧
      ((∀ o ∈ [RawHeader.mk false 32], o.marked = false) →
        r.inserts = [] ∧ r.used = 0 ∧ r.inUse = false) ∧
      (∀ pre run post, [RawHeader.mk false 32] = pre ++ run ++ post →
        endsMarked pre = true → run ≠ [] → (∀ o ∈ run, o.marked = false) →
        headMarked post = true → ¬(pre = [] ∧ post = []) →
        (0 + sumSizes pre, sumSizes run, false) ∈ r.inserts) ∧
      (∀ p ∈ r.inserts, ¬(p.1 = 0 ∧ p.1 + p.2.1 = 32)) :=
  ⟨by decide, SweepPage_whole_page_garbage ⟨false, false, false, 0, 0⟩ 0 32
    (mkMem [⟨false, 32⟩]) [⟨false, 32⟩] (by decide) (by decide) (by decide) (by decide)⟩

/-- C7: every word of a garbage run on an executable page is overwritten
with the break-instruction filler; on non-executable pages the run is
overwritten with the zap pattern in debug builds only, and left unchanged
in release builds. -/
theorem SweepPage_poisons_runs (cfg : SweepCfg) (s e : Nat) (m : PageMem)
    (pre run post : List RawHeader)
    (hl : layout m.header s (pre ++ run ++ post))
    (hp : allPos (pre ++ run ++ post))
    (he : s + sumSizes (pre ++ run ++ post) = e)
    (hpre : endsMarked pre = true)
    (hrne : run ≠ []) (hrun : ∀ o ∈ run, o.marked = false)
    (hpost : headMarked post = true)
    (hal : ∀ o ∈ run, o.size % 8 = 0) :
    ∃ r, SweepPage cfg s e m = some r ∧
      ∀ k, 8 * k < sumSizes run →
        (cfg.isExec = true →
          r.mem.word (s + sumSizes pre + 8 * k) = cfg.breakFiller) ∧
        (cfg.isExec = false → cfg.debug = true →
          r.mem.word (s + sumSizes pre + 8 * k) = cfg.zapWord) ∧
        (cfg.isExec = false → cfg.debug = false →
          r.mem.word (s + sumSizes pre + 8 * k) = m.word (s + sumSizes pre + 8 * k)) := by
  refine ⟨_, SweepPage_spec cfg s e m (pre ++ run ++ post) hl hp he, ?_⟩
  intro k hk
  have hw := memFrom_word_run cfg pre run post s m k hp hpre hrne hrun hpost
    (sumSizes_aligned hal) hk
  dsimp only
  refine ⟨fun hex => ?_, fun hex hd => ?_, fun hex hd => ?_⟩
  · simp only [hex, if_true] at hw
    exact hw
  · simp only [hex, hd, Bool.false_eq_true, if_false, if_true] at hw
    exact hw
  · simp only [hex, hd, Bool.false_eq_true, if_false] at hw
    exact hw

theorem SweepPage_poisons_runs_witness :
    (∀ o ∈ [RawHeader.mk false 16], o.size % 8 = 0) ∧
    ∃ r, SweepPage ⟨true, false, false, 204, 0⟩ 0 24
        (mkMem [⟨true, 8⟩, ⟨false, 16⟩]) = some r ∧
      ∀ k, 8 * k < sumSizes [RawHeader.mk false 16] →
        ((true : Bool) = true → r.mem.word (0 + sumSizes [RawHeader.mk true 8] + 8 * k) = 204) ∧
        ((true : Bool) = false → (false : Bool) = true →
          r.mem.word (0 + sumSizes [RawHeader.mk true 8] + 8 * k) = 0) ∧
        ((true : Bool) = false → (false : Bool) = false →
          r.mem.word (0 + sumSizes [RawHeader.mk true 8] + 8 * k) =
            (mkMem [⟨true, 8⟩, ⟨false, 16⟩]).word
              (0 + sumSizes [RawHeader.mk true 8] + 8 * k)) :=
  ⟨by decide, SweepPage_poisons_runs ⟨true, false, false, 204, 0⟩ 0 24
    (mkMem [⟨true, 8⟩, ⟨false, 16⟩]) [⟨true, 8⟩] [⟨false, 16⟩] []
    (by decide) (by decide) (by decide) (by decide) (by decide) (by decide)
    (by decide) (by decide)⟩

/-- C9 counterexample: on a page holding an unmarked 8-byte object
followed by a marked 8-byte object, the live object's mark bit is read
twice — once when the run-extension loop finds it closing the free block
(sweeper.cc line 43) and once again at the main loop head (line 34) — so
"the mark bit of a live object is read exactly once" is false. -/
theorem SweepPage_mark_read_twice_counterexample :
    (SweepPage ⟨false, false, false, 0, 0⟩ 0 16
        (mkMem [⟨false, 8⟩, ⟨true, 8⟩])).map (fun r => countReads r.trace 8) =
      some 2 ∧
    (SweepPage ⟨false, false, false, 0, 0⟩ 0 16
        (mkMem [⟨false, 8⟩, ⟨true, 8⟩])).map (fun r => countReads r.trace 8) ≠
      some 1 :=
  ⟨by decide, by decide⟩

/-- C9 (amended): `SweepPage` writes only into garbage runs — every word
of a live object is unchanged (its header write is only the mark-bit
clear) — and the mark bit of a live object is read exactly once, except
when the object immediately follows a garbage run and closes it, in which
case it is read exactly twice. -/
theorem SweepPage_frame_and_mark_reads (cfg : SweepCfg) (s e : Nat) (m : PageMem)
    (pre post : List RawHeader) (o : RawHeader) (ho : o.marked = true)
    (hl : layout m.header s (pre ++ o :: post))
    (hp : allPos (pre ++ o :: post))
    (he : s + sumSizes (pre ++ o :: post) = e) :
    ∃ r, SweepPage cfg s e m = some r ∧
      (∀ x, s + sumSizes pre ≤ x → x < s + sumSizes pre + o.size →
        r.mem.word x = m.word x) ∧
      countReads r.trace (s + sumSizes pre) =
        (if endsUnmarked pre = true then 2 else 1) :=
  ⟨_, SweepPage_spec cfg s e m (pre ++ o :: post) hl hp he,
    fun x hx1 hx2 => memFrom_word_live cfg o ho pre post s m x hp hx1 hx2,
    countReads_trFrom ho pre post s hp⟩

theorem SweepPage_frame_and_mark_reads_witness :
    (RawHeader.mk true 8).marked = true ∧
    ∃ r, SweepPage ⟨false, false, false, 0, 0⟩ 0 24
        (mkMem [⟨true, 8⟩, ⟨false, 8⟩, ⟨true, 8⟩]) = some r ∧
      (∀ x, 0 + sumSizes [RawHeader.mk true 8, RawHeader.mk false 8] ≤ x →
        x < 0 + sumSizes [RawHeader.mk true 8, RawHeader.mk false 8] +
          (RawHeader.mk true 8).size →
        r.mem.word x = (mkMem [⟨true, 8⟩, ⟨false, 8⟩, ⟨true, 8⟩]).word x) ∧
      countReads r.trace (0 + sumSizes [RawHeader.mk true 8, RawHeader.mk false 8]) =
        (if endsUnmarked [RawHeader.mk true 8, RawHeader.mk false 8] = true
          then 2 else 1) :=
  ⟨rfl, SweepPage_frame_and_mark_reads ⟨false, false, false, 0, 0⟩ 0 24
    (mkMem [⟨true, 8⟩, ⟨false, 8⟩, ⟨true, 8⟩])
    [⟨true, 8⟩, ⟨false, 8⟩] [] ⟨true, 8⟩ rfl (by decide) (by decide) (by decide)⟩

/-- C4: `SweepLargePage` returns 0 when the single primary object is
unmarked; when it is marked, it clears the mark bit and returns exactly
the object's heap size in words — independent of the trailing filler
objects, given the precondition that the fillers are unmarked. -/
theorem SweepLargePage_primary (debug : Bool) (zap : Nat) (s e : Nat) (m : PageMem)
    (h : RawHeader) (fillers : List RawHeader)
    (hh : m.header s = some h) (hpos : 0 < h.size)
    (hlf : layout m.header (s + h.size) fillers) (hpf : allPos fillers)
    (hunm : ∀ o ∈ fillers, o.marked = false)
    (hef : s + h.size + sumSizes fillers = e) :
    ∃ m2, SweepLargePage debug zap s e m =
        some (if h.marked then h.size / 8 else 0, m2) ∧
      m2.header s = some (RawHeader.mk false h.size) := by
  obtain ⟨m2, h1, h2⟩ := SweepLargePage_spec debug zap s e m h fillers hh hpos hlf
    hpf hunm hef
  refine ⟨m2, ?_, h2⟩
  rw [h1]
  have hval : (if h.marked then h.size >>> kWordSizeLog2 else 0) =
      (if h.marked then h.size / 8 else 0) := by
    by_cases hmk : h.marked
    · rw [if_pos hmk, if_pos hmk, Nat.shiftRight_eq_div_pow]
      norm_num [kWordSizeLog2]
    · rw [if_neg hmk, if_neg hmk]
  rw [hval]

theorem SweepLargePage_primary_witness :
    (mkMem [⟨true, 24⟩, ⟨false, 8⟩]).header 0 = some (RawHeader.mk true 24) ∧
    ∃ m2, SweepLargePage true 205 0 32 (mkMem [⟨true, 24⟩, ⟨false, 8⟩]) =
        some (if (RawHeader.mk true 24).marked then (RawHeader.mk true 24).size / 8
          else 0, m2) ∧
      m2.header 0 = some (RawHeader.mk false (RawHeader.mk true 24).size) :=
  ⟨by decide, SweepLargePage_primary true 205 0 32 (mkMem [⟨true, 24⟩, ⟨false, 8⟩])
    ⟨true, 24⟩ [⟨false, 8⟩] (by decide) (by decide) (by decide) (by decide)
    (by decide) (by decide)⟩

/-- C8 counterexample: a task over one large page and one ordinary page
notifies the monitor only after the ordinary page — the event after the
large page is the next sweep, not a notification — so "a waiter is
notified after every single page (both large and ordinary)" is false. -/
theorem ConcurrentSweeperTask_large_no_notify_counterexample :
    taskTrace false 0 0 [⟨0, 8, mkMem [⟨true, 8⟩]⟩] [⟨0, 8, mkMem [⟨true, 8⟩]⟩] =
      some [TaskEv.sweptLarge 1, TaskEv.sweptPage true, TaskEv.notify,
        TaskEv.completed] ∧
    notifiedAfterEachPage [TaskEv.sweptLarge 1, TaskEv.sweptPage true,
      TaskEv.notify, TaskEv.completed] = false :=
  ⟨by decide, by decide⟩

/-- C8 (amended): the concurrent sweep task notifies a monitor waiter
after every ordinary page; the number of per-page notifications equals
the number of ordinary pages, so large-object pages contribute none —
waiters learn of swept large pages only through the completion
notification. -/
theorem ConcurrentSweeperTask_notify_each_ord_page (d : Bool) (z bf : Nat)
    (ls os : List PageDesc) (evs : List TaskEv)
    (hT : taskTrace d z bf ls os = some evs) :
    notifiedAfterEachOrdPage evs = true ∧
    evs.count TaskEv.notify = os.length := by
  obtain ⟨l, o, hlp, hop, hevs⟩ := taskTrace_decomp hT
  subst hevs
  obtain ⟨o1, o2, _⟩ := runOrdPages_shape d z bf os o hop
  have hlarge := runLargePages_evs d z ls l hlp
  constructor
  · rw [List.append_assoc, notifiedAfterEachOrdPage_large hlarge, o1]
    rfl
  · rw [List.append_assoc, List.count_append, List.count_append,
      count_notify_large hlarge, o2]
    simp

theorem ConcurrentSweeperTask_notify_each_ord_page_witness :
    taskTrace false 0 0 [] [⟨0, 8, mkMem [⟨true, 8⟩]⟩] =
      some [TaskEv.sweptPage true, TaskEv.notify, TaskEv.completed] ∧
    (notifiedAfterEachOrdPage [TaskEv.sweptPage true, TaskEv.notify,
        TaskEv.completed] = true ∧
      [TaskEv.sweptPage true, TaskEv.notify, TaskEv.completed].count
        TaskEv.notify = 1) :=
  ⟨by decide, ConcurrentSweeperTask_notify_each_ord_page false 0 0 []
    [⟨0, 8, mkMem [⟨true, 8⟩]⟩] _ (by decide)⟩

theorem cons_replicate_getLast {α : Type} (x y : α) (n : Nat) :
    (x :: (List.replicate n x ++ [y])).getLast? = some y := by
  rw [show x :: (List.replicate n x ++ [y]) = (x :: List.replicate n x) ++ [y] from rfl,
    List.getLast?_append_of_ne_nil _ (by simp)]
  rfl

theorem cons_replicate_dropLast {α : Type} (x y : α) (n : Nat) :
    (x :: (List.replicate n x ++ [y])).dropLast = x :: List.replicate n x := by
  rw [show x :: (List.replicate n x ++ [y]) = (x :: List.replicate n x) ++ [y] from rfl,
    List.dropLast_concat]

/-- C5: across one concurrent sweeper task started from a quiescent state
(task count 0), the constructor's monitor section takes the count 0→1 and
sets the phase to Sweeping; every monitor observation before completion
shows count 1 and phase Sweeping; the completion section takes the count
1→0, asserts the phase was Sweeping, sets it to Done and wakes all
waiters. -/
theorem ConcurrentSweeperTask_phase_protocol (d : Bool) (z bf : Nat)
    (ls os : List PageDesc) (s0 : SpaceState) (evs : List TaskEv)
    (h0 : s0.tasks = 0) (hT : taskTrace d z bf ls os = some evs) :
    ∃ sts, taskLife d z bf ls os s0 = some sts ∧
      sts.head? = some { tasks := 1, phase := SpacePhase.kSweeping } ∧
      sts.getLast? = some { tasks := 0, phase := SpacePhase.kDone } ∧
      ∀ st ∈ sts.dropLast, st = { tasks := 1, phase := SpacePhase.kSweeping } := by
  obtain ⟨l, o, hlp, hop, hevs⟩ := taskTrace_decomp hT
  have hnc : TaskEv.completed ∉ l ++ o := by
    intro hc
    rcases List.mem_append.mp hc with hc | hc
    · obtain ⟨w, hw⟩ := runLargePages_evs d z ls l hlp _ hc
      simp at hw
    · exact (runOrdPages_shape d z bf os o hop).2.2 hc
  have hctor : taskCtor s0 = { tasks := 1, phase := SpacePhase.kSweeping } := by
    simp [taskCtor, h0]
  have h1 : taskLife d z bf ls os s0 =
      (statesFrom (taskCtor s0) evs).map (taskCtor s0 :: ·) := by
    unfold taskLife
    rw [hT]
  rw [hevs, show l ++ o ++ [TaskEv.completed] = (l ++ o) ++ [TaskEv.completed] from
    by rw [List.append_assoc]] at h1
  rw [statesFrom_final (taskCtor s0) (by rw [hctor]) (l ++ o) hnc] at h1
  rw [hctor] at h1
  simp only [Option.map_some'] at h1
  refine ⟨_, h1, rfl, ?_, ?_⟩
  · rw [cons_replicate_getLast]
    decide
  · intro st hst
    rw [cons_replicate_dropLast] at hst
    rcases List.mem_cons.mp hst with rfl | hst
    · rfl
    · exact List.eq_of_mem_replicate hst

theorem ConcurrentSweeperTask_phase_protocol_witness :
    (SpaceState.mk 0 SpacePhase.kMarking).tasks = 0 ∧
    ∃ sts, taskLife false 0 0 [] [⟨0, 8, mkMem [⟨true, 8⟩]⟩]
        ⟨0, SpacePhase.kMarking⟩ = some sts ∧
      sts.head? = some { tasks := 1, phase := SpacePhase.kSweeping } ∧
      sts.getLast? = some { tasks := 0, phase := SpacePhase.kDone } ∧
      ∀ st ∈ sts.dropLast, st = { tasks := 1, phase := SpacePhase.kSweeping } :=
  ⟨rfl, ConcurrentSweeperTask_phase_protocol false 0 0 []
    [⟨0, 8, mkMem [⟨true, 8⟩]⟩] ⟨0, SpacePhase.kMarking⟩
    [TaskEv.sweptPage true, TaskEv.notify, TaskEv.completed] rfl (by decide)⟩

end Sweep
